import Mathlib

/-!
Verification of the evergreen ingestion/retrieval core.

Python strings are modelled as `List Char` (`Str`).  Python's text
operations used by the source (`str.split`, `str.strip`, the specific
regular expressions of the parser and chunker) are embedded as
executable functions on `Str`.  External collaborators (the html2text
converter, the embedding provider, the NER extractor, the Qdrant and
FalkorDB engines, the LLM) are modelled as oracle parameters or as
explicit state transition functions following their documented
contracts; everything else is translated from the repository source.
-/

namespace Evergreen

/-- Python strings modelled as lists of characters. -/
abbrev Str := List Char

/-- Whitespace characters recognised by Python's `str.strip` / `str.split`
(ASCII fragment; all text in this development is ASCII). -/
def isWs (c : Char) : Bool :=
  c = ' ' || c = '\t' || c = '\n' || c = '\r' || c = Char.ofNat 11 || c = Char.ofNat 12

/-- Python `str.strip()`: drop whitespace from both ends. -/
def pyStrip (s : Str) : Str :=
  ((s.dropWhile isWs).reverse.dropWhile isWs).reverse

theorem dropWhile_length_le (p : Char → Bool) (l : Str) :
    (l.dropWhile p).length ≤ l.length := by
  induction l with
  | nil => simp [List.dropWhile]
  | cons c cs ih =>
    simp only [List.dropWhile]
    by_cases h : p c
    · simp only [h]; exact Nat.le_succ_of_le ih
    · simp [h]

/-- Python `str.split(sep)` for a single-character separator: split at every
occurrence, keeping empty pieces. -/
def splitChar (sep : Char) : Str → List Str
  | [] => [[]]
  | c :: cs =>
    if c = sep then [] :: splitChar sep cs
    else
      match splitChar sep cs with
      | [] => [[c]]
      | p :: ps => (c :: p) :: ps

/-- Python `str.split("\n\n")`: split at every non-overlapping occurrence of
two consecutive newlines, scanning left to right, keeping empty pieces. -/
def splitNN : Str → List Str
  | [] => [[]]
  | c :: cs =>
    if c = '\n' ∧ cs.head? = some '\n' then [] :: splitNN cs.tail
    else
      match splitNN cs with
      | [] => [[c]]
      | p :: ps => (c :: p) :: ps
termination_by s => s.length
decreasing_by
  · cases cs with
    | nil => simp at *
    | cons d ds => simp only [List.tail_cons, List.length_cons]; omega
  · simp only [List.length_cons]; omega

/-- Worker for `str.split()`: structural recursion on fuel so that the
kernel can evaluate it (each step strictly shrinks the string, so fuel
`s.length` always suffices and the out-of-fuel branch is unreachable). -/
def pyWordsGo : Nat → Str → List Str
  | _, [] => []
  | 0, _ => []
  | fuel + 1, c :: cs =>
    if isWs c then pyWordsGo fuel cs
    else (c :: cs.takeWhile (fun d => !isWs d)) :: pyWordsGo fuel (cs.dropWhile (fun d => !isWs d))

/-- Python `str.split()` with no argument: words separated by whitespace
runs, with no empty pieces. -/
def pyWords (s : Str) : List Str :=
  pyWordsGo s.length s

/-- Characters that end a sentence for the chunker's sentence splitter. -/
def isSentEnd (c : Char) : Bool :=
  c = '.' || c = '!' || c = '?'

/-- Check whether the previously consumed character (head of the reversed
accumulator) ends a sentence. -/
def prevSentEnd (acc : Str) : Bool :=
  match acc.head? with
  | some p => isSentEnd p
  | none => false

/-- Worker for `re.split(r'(?<=[.!?])\s+', text)`: `acc` holds the current
piece reversed, so its head is the previously consumed character (the
lookbehind).  Structural recursion on fuel so that the kernel can
evaluate it; every step strictly shrinks the string, so fuel `s.length`
always suffices. -/
def splitSentGo : Nat → Str → Str → List Str
  | _, acc, [] => [acc.reverse]
  | 0, acc, _ => [acc.reverse]
  | fuel + 1, acc, c :: cs =>
    if isWs c && prevSentEnd acc then
      acc.reverse :: splitSentGo fuel [] (cs.dropWhile isWs)
    else
      splitSentGo fuel (c :: acc) cs

/-- Embedding of `re.split(r'(?<=[.!?])\s+', text)` from
`SemanticChunker._split_at_sentences`. -/
def splitSentences (s : Str) : List Str :=
  splitSentGo s.length [] s

/-- The lookahead `(?=#{1,6}\s)` of the header-splitting regex: one to six
`#` characters followed by a whitespace character. -/
def isHeaderStart (cs : Str) : Bool :=
  let hashes := cs.takeWhile (fun c => c = '#')
  decide (1 ≤ hashes.length) && decide (hashes.length ≤ 6) &&
    (match (cs.drop hashes.length).head? with
     | some c => isWs c
     | none => false)

/-- Worker for `re.split(r'\n(?=#{1,6}\s)', text)`: the newline is consumed,
the header marker stays with the following piece. -/
def splitHeadersGo : Str → Str → List Str
  | acc, [] => [acc.reverse]
  | acc, c :: cs =>
    if c == '\n' && isHeaderStart cs then
      acc.reverse :: splitHeadersGo [] cs
    else
      splitHeadersGo (c :: acc) cs

/-- Embedding of `SemanticChunker._split_at_headers`: split at markdown-style
headers, strip the pieces, drop the empty ones. -/
def splitAtHeaders (s : Str) : List Str :=
  ((splitHeadersGo [] s).map pyStrip).filter (fun p => p ≠ [])

/-- Embedding of `SemanticChunker._estimate_tokens`: `len(text) // 4`. -/
def estimateTokens (s : Str) : Nat :=
  s.length / 4

/-- The `DataSource` enum from `models.py`. -/
inductive DataSource where
  | m365Email | m365File | m365Teams | m365Calendar
  | googleEmail | googleFile | googleCalendar | slack
deriving DecidableEq, Repr

/-- The `value` of each `DataSource` member. -/
def DataSource.value : DataSource → Str
  | .m365Email => "m365_email".data
  | .m365File => "m365_file".data
  | .m365Teams => "m365_teams".data
  | .m365Calendar => "m365_calendar".data
  | .googleEmail => "google_email".data
  | .googleFile => "google_file".data
  | .googleCalendar => "google_calendar".data
  | .slack => "slack".data

/-- Membership test `document.source in [DataSource.M365_EMAIL, DataSource.GOOGLE_EMAIL]`. -/
def DataSource.isEmail : DataSource → Bool
  | .m365Email | .googleEmail => true
  | _ => false

/-- Membership test `document.source in [DataSource.M365_TEAMS, DataSource.SLACK]`. -/
def DataSource.isChat : DataSource → Bool
  | .m365Teams | .slack => true
  | _ => false

/-- The `ChunkingConfig` dataclass from `chunker.py`. -/
structure ChunkingConfig where
  maxTokens : Nat
  overlapTokens : Nat
  minChunkSize : Nat
deriving DecidableEq, Repr

/-- The `DEFAULT_CONFIGS` dictionary from `chunker.py` (it has an entry for
every `DataSource`, so the `ChunkingConfig()` fallback of
`DEFAULT_CONFIGS.get` is unreachable and the lookup is a total match). -/
def defaultConfigs : DataSource → ChunkingConfig
  | .m365Email | .googleEmail => ⟨512, 50, 100⟩
  | .m365Teams | .slack => ⟨256, 0, 100⟩
  | .m365File | .googleFile => ⟨1024, 100, 100⟩
  | .m365Calendar | .googleCalendar => ⟨512, 50, 100⟩

/-- The `RawDocument` pydantic model (the fields the core pipeline reads;
`participants` and the free-form `metadata` dict are read by no embedded
function and are omitted; `timestamp` is an abstract instant). -/
structure RawDocument where
  id : Str
  tenantId : Str
  source : DataSource
  sourceId : Str
  title : Option Str
  body : Str
  threadId : Option Str
  timestamp : Nat
deriving DecidableEq, Repr

/-- The metadata dict built by `SemanticChunker._create_chunk`. -/
structure ChunkMeta where
  source : Str
  sourceId : Str
  title : Option Str
  timestamp : Nat
  threadId : Option Str
deriving DecidableEq, Repr

/-- The `DocumentChunk` pydantic model. -/
structure DocumentChunk where
  id : Str
  documentId : Str
  tenantId : Str
  content : Str
  chunkIndex : Nat
  tokenCount : Nat
  meta : ChunkMeta
deriving DecidableEq, Repr

/-- Stand-in for the `uuid4()` default id of a fresh `DocumentChunk`,
modelled deterministically (document id, a separator, the chunk index);
no verified claim depends on the value of a generated id. -/
def chunkIdFor (doc : RawDocument) (idx : Nat) : Str :=
  doc.id ++ '/' :: Nat.toDigits 10 idx

namespace SemanticChunker

/-- Embedding of `SemanticChunker._create_chunk`. -/
def createChunk (doc : RawDocument) (content : Str) (chunkIndex tokenCount : Nat) :
    DocumentChunk :=
  { id := chunkIdFor doc chunkIndex
    documentId := doc.id
    tenantId := doc.tenantId
    content := content
    chunkIndex := chunkIndex
    tokenCount := tokenCount
    meta :=
      { source := doc.source.value
        sourceId := doc.sourceId
        title := doc.title
        timestamp := doc.timestamp
        threadId := doc.threadId } }

/-- Worker loop of `SemanticChunker._split_long_text`: the word-window
slide over `words` starting at index `i`.  `wpc` is `int(max_tokens*0.75)`
and `ow` is `int(overlap_tokens*0.75)` (both exact in floating point for
the values in use).  The Python `while` loop is modelled with fuel; fuel
`words.length + 1` is enough whenever `ow < wpc` (each step advances the
index by at least `wpc - ow ≥ 1`); when the step does not advance
(`wpc ≤ ow`, never the case for the shipped configurations) the Python
loop diverges and the model returns the segments produced so far. -/
def windowGo (words : List Str) (wpc ow : Nat) : Nat → Nat → List Str
  | _, 0 => []
  | i, fuel + 1 =>
    if i < words.length then
      let e := min (i + wpc) words.length
      let piece := List.intercalate [' '] ((words.drop i).take (e - i))
      piece :: windowGo words wpc ow (if e < words.length then e - ow else e) fuel
    else []

/-- Embedding of `SemanticChunker._split_long_text`. -/
def splitLongText (text : Str) (maxTokens overlapTokens : Nat) : List Str :=
  let words := pyWords text
  windowGo words (maxTokens * 3 / 4) (overlapTokens * 3 / 4) 0 (words.length + 1)

/-- The `for sub in sub_chunks` append loop shared by `_chunk_email` and
`_chunk_generic`: each sub-chunk is appended with `chunk_index = len(chunks)`
and its own token estimate. -/
def appendSubs (doc : RawDocument) : List DocumentChunk → List Str → List DocumentChunk
  | acc, [] => acc
  | acc, s :: ss =>
    appendSubs doc (acc ++ [createChunk doc s acc.length (estimateTokens s)]) ss

/-- The paragraph-packing loop of `SemanticChunker._chunk_email` over the
paragraph list, carrying the accumulated chunks and the current chunk with
its running token count. -/
def emailLoop (doc : RawDocument) (cfg : ChunkingConfig) :
    List Str → List DocumentChunk → Str → Nat → List DocumentChunk
  | [], acc, cur, curTok =>
    if cur ≠ [] then acc ++ [createChunk doc cur acc.length curTok] else acc
  | para :: rest, acc, cur, curTok =>
    let pTok := estimateTokens para
    if curTok + pTok ≤ cfg.maxTokens then
      emailLoop doc cfg rest acc (cur ++ (if cur ≠ [] then ['\n', '\n'] else []) ++ para)
        (curTok + pTok)
    else
      let acc1 := if cur ≠ [] then acc ++ [createChunk doc cur acc.length curTok] else acc
      if pTok > cfg.maxTokens then
        let subs := splitLongText para cfg.maxTokens cfg.overlapTokens
        emailLoop doc cfg rest (appendSubs doc acc1 subs) [] 0
      else
        emailLoop doc cfg rest acc1 para pTok

/-- Embedding of `SemanticChunker._chunk_email`. -/
def chunkEmail (doc : RawDocument) (cfg : ChunkingConfig) : List DocumentChunk :=
  let text := doc.body
  let tokenCount := estimateTokens text
  if tokenCount ≤ cfg.maxTokens then
    [createChunk doc text 0 tokenCount]
  else
    emailLoop doc cfg (splitNN text) [] [] 0

/-- The sentence-packing loop of `SemanticChunker._split_at_sentences`. -/
def sentenceLoop (doc : RawDocument) (cfg : ChunkingConfig) :
    List Str → List DocumentChunk → Str → Nat → List DocumentChunk
  | [], acc, cur, curTok =>
    if cur ≠ [] then acc ++ [createChunk doc cur acc.length curTok] else acc
  | s :: rest, acc, cur, curTok =>
    let sTok := estimateTokens s
    if curTok + sTok ≤ cfg.maxTokens then
      sentenceLoop doc cfg rest acc (cur ++ (if cur ≠ [] then [' '] else []) ++ s)
        (curTok + sTok)
    else
      let acc1 := if cur ≠ [] then acc ++ [createChunk doc cur acc.length curTok] else acc
      sentenceLoop doc cfg rest acc1 s sTok

/-- Embedding of `SemanticChunker._split_at_sentences`. -/
def splitAtSentences (doc : RawDocument) (text : Str) (cfg : ChunkingConfig) :
    List DocumentChunk :=
  sentenceLoop doc cfg (splitSentences text) [] [] 0

/-- Embedding of `SemanticChunker._chunk_chat`. -/
def chunkChat (doc : RawDocument) (cfg : ChunkingConfig) : List DocumentChunk :=
  let text := doc.body
  let tokenCount := estimateTokens text
  if tokenCount ≤ cfg.maxTokens then
    [createChunk doc text 0 tokenCount]
  else
    splitAtSentences doc text cfg

/-- The per-section append loop of `SemanticChunker._chunk_generic`. -/
def sectionLoop (doc : RawDocument) (cfg : ChunkingConfig) :
    List Str → List DocumentChunk → List DocumentChunk
  | [], acc => acc
  | sec :: rest, acc =>
    let sTok := estimateTokens sec
    if sTok ≤ cfg.maxTokens then
      sectionLoop doc cfg rest (acc ++ [createChunk doc sec acc.length sTok])
    else
      sectionLoop doc cfg rest
        (appendSubs doc acc (splitLongText sec cfg.maxTokens cfg.overlapTokens))

/-- Embedding of `SemanticChunker._chunk_generic`. -/
def chunkGeneric (doc : RawDocument) (cfg : ChunkingConfig) : List DocumentChunk :=
  let text := doc.body
  let tokenCount := estimateTokens text
  if tokenCount ≤ cfg.maxTokens then
    [createChunk doc text 0 tokenCount]
  else
    let sections := splitAtHeaders text
    if sections.length > 1 then
      sectionLoop doc cfg sections []
    else
      chunkEmail doc cfg

/-- Embedding of `SemanticChunker.chunk`: `defaultCfg` is the optional
constructor argument (`self._default_config`); `None` selects the
per-source entry of `DEFAULT_CONFIGS`. -/
def chunk (defaultCfg : Option ChunkingConfig) (doc : RawDocument) : List DocumentChunk :=
  let cfg := defaultCfg.getD (defaultConfigs doc.source)
  if doc.source.isEmail then chunkEmail doc cfg
  else if doc.source.isChat then chunkChat doc cfg
  else chunkGeneric doc cfg

end SemanticChunker

/-- Case-insensitive prefix test used for regexes compiled with
`re.IGNORECASE` (the patterns are given lowercase). -/
def startsWithCI (pat : Str) (s : Str) : Bool :=
  (s.take pat.length).map Char.toLower == pat

/-- Case-insensitive substring test. -/
def hasSubCI (pat : Str) : Str → Bool
  | [] => pat.isEmpty
  | c :: cs => startsWithCI pat (c :: cs) || hasSubCI pat cs

/-- Drop to the suffix just after the first case-insensitive occurrence of
`pat`; `none` when `pat` does not occur. -/
def dropPastCI (pat : Str) : Str → Option Str
  | [] => if pat.isEmpty then some [] else none
  | c :: cs =>
    if startsWithCI pat (c :: cs) then some ((c :: cs).drop pat.length)
    else dropPastCI pat cs

/-- Ordered occurrence of every pattern in turn, each starting after the end
of the previous one (the `.*` connectives of a `DOTALL` regex). -/
def chainCI : List Str → Str → Bool
  | [], _ => true
  | p :: ps, s =>
    match dropPastCI p s with
    | some rest => chainCI ps rest
    | none => false

/-- Truncate `s` at the first position whose suffix satisfies `p`
(`re.sub(pattern + '.*$', '', s, DOTALL)` or `s[:match.start()]` for a
pattern anchored to the end by `.*$`). -/
def truncAt (p : Str → Bool) : Str → Str
  | [] => []
  | c :: cs => if p (c :: cs) then [] else c :: truncAt p cs

/-- Did the regex fragment `\s*\n` match here: a whitespace run that ends at
some newline, i.e. the whitespace run starting here contains a newline. -/
def wsRunHasNl (s : Str) : Bool :=
  (s.takeWhile isWs).contains '\n'

/-- Drop one optional leading comma (the `,?` of the salutation patterns;
a comma is not whitespace, so the following `\s*\n` can succeed only on
the suffix past the comma when one is present). -/
def dropComma (s : Str) : Str :=
  match s with
  | ',' :: rest => rest
  | _ => s

/-- Match of `\n--\s*\n` at the head of `s`. -/
def sigDashes (s : Str) : Bool :=
  match s with
  | '\n' :: '-' :: '-' :: rest => wsRunHasNl rest
  | _ => false

/-- Match of `\n_{3,}` at the head of `s`. -/
def sigUnderscores (s : Str) : Bool :=
  match s with
  | '\n' :: '_' :: '_' :: '_' :: _ => true
  | _ => false

/-- Match of one of `\nRegards,?\s*\n` / `\nBest,?\s*\n` / `\nThanks,?\s*\n`
(case-insensitive) at the head of `s`, for the given salutation word. -/
def sigSalutation (word : Str) (s : Str) : Bool :=
  match s with
  | '\n' :: rest =>
    startsWithCI word rest && wsRunHasNl (dropComma (rest.drop word.length))
  | _ => false

/-- Embedding of `DocumentParser._remove_email_signature`: the seven
`re.sub(pattern, '', text, IGNORECASE | DOTALL)` calls applied in order,
each of which truncates at the first match of its delimiter (every pattern
ends in `.*$`, so a match always extends to the end of the text). -/
def removeEmailSignature (s : Str) : Str :=
  let s1 := truncAt sigDashes s
  let s2 := truncAt (fun t => startsWithCI "\nsent from my ".data t) s1
  let s3 := truncAt (fun t => startsWithCI "\nget outlook for ".data t) s2
  let s4 := truncAt sigUnderscores s3
  let s5 := truncAt (sigSalutation "regards".data) s4
  let s6 := truncAt (sigSalutation "best".data) s5
  truncAt (sigSalutation "thanks".data) s6

/-- Match of `\n>+ ?On .* wrote:` (case-insensitive, `DOTALL`) at the head
of `s`: a newline, a maximal run of at least one `>`, an optional space,
`on `, and ` wrote:` occurring anywhere later. -/
def quoteGmail (s : Str) : Bool :=
  match s with
  | '\n' :: rest =>
    let gts := rest.takeWhile (fun c => c = '>')
    let t := rest.drop gts.length
    decide (1 ≤ gts.length) &&
      ((match t with
        | ' ' :: u => startsWithCI "on ".data u && hasSubCI " wrote:".data (u.drop 3)
        | _ => false) ||
       (startsWithCI "on ".data t && hasSubCI " wrote:".data (t.drop 3)))
  | _ => false

/-- Match of `\n-{3,}Original Message-{3,}` (case-insensitive) at the head
of `s`. -/
def quoteOutlook (s : Str) : Bool :=
  match s with
  | '\n' :: rest =>
    let d1 := rest.takeWhile (fun c => c = '-')
    let t := rest.drop d1.length
    decide (3 ≤ d1.length) && startsWithCI "original message".data t &&
      decide (3 ≤ ((t.drop 16).takeWhile (fun c => c = '-')).length)
  | _ => false

/-- Match of `\nFrom: .*\nSent: .*\nTo: .*\nSubject: .*$` (case-insensitive,
`DOTALL`) at the head of `s`. -/
def quoteHeaders (s : Str) : Bool :=
  match s with
  | '\n' :: rest =>
    startsWithCI "from: ".data rest &&
      chainCI ["\nsent: ".data, "\nto: ".data, "\nsubject: ".data] (rest.drop 6)
  | _ => false

/-- Embedding of `DocumentParser._trim_quoted_replies`: for each of the
three quote patterns in order, truncate at the start of its first match. -/
def trimQuotedReplies (s : Str) : Str :=
  truncAt quoteHeaders (truncAt quoteOutlook (truncAt quoteGmail s))

/-- Match of `<name[^>]*>` (case-insensitive) anywhere in `s` for an opening
tag name: an occurrence of `<name` with a `>` somewhere after it. -/
def hasOpenTag (name : Str) : Str → Bool
  | [] => false
  | c :: cs =>
    (startsWithCI ('<' :: name) (c :: cs) &&
      ((c :: cs).drop (name.length + 1)).contains '>') ||
    hasOpenTag name cs

/-- Match of `<br\s*/?>` (case-insensitive) anywhere in `s`. -/
def hasBrTag : Str → Bool
  | [] => false
  | c :: cs =>
    (startsWithCI "<br".data (c :: cs) &&
      (match ((c :: cs).drop 3).dropWhile isWs with
       | '>' :: _ => true
       | '/' :: '>' :: _ => true
       | _ => false)) ||
    hasBrTag cs

/-- Embedding of `DocumentParser._is_html`. -/
def isHtml (s : Str) : Bool :=
  hasOpenTag "html".data s || hasOpenTag "body".data s || hasOpenTag "div".data s ||
    hasOpenTag "p".data s || hasBrTag s

/-- Worker for collapsing a run of three or more newlines to exactly two
(`re.sub(r'\n{3,}', '\n\n', text)`); structural recursion on fuel so
that the kernel can evaluate it (fuel `s.length` always suffices). -/
def collapseNewlinesGo : Nat → Str → Str
  | _, [] => []
  | 0, s => s
  | fuel + 1, c :: cs =>
    if c = '\n' then
      let run := cs.takeWhile (fun d => d = '\n')
      let rest := cs.dropWhile (fun d => d = '\n')
      (if 1 + run.length ≥ 3 then ['\n', '\n'] else '\n' :: run) ++ collapseNewlinesGo fuel rest
    else c :: collapseNewlinesGo fuel cs

/-- Collapse every run of three or more newlines to exactly two. -/
def collapseNewlines (s : Str) : Str :=
  collapseNewlinesGo s.length s

/-- Worker for collapsing runs of two or more spaces to one
(`re.sub(r' {2,}', ' ', text)`); structural recursion on fuel. -/
def collapseSpacesGo : Nat → Str → Str
  | _, [] => []
  | 0, s => s
  | fuel + 1, c :: cs =>
    if c = ' ' then
      ' ' :: collapseSpacesGo fuel (cs.dropWhile (fun d => d = ' '))
    else c :: collapseSpacesGo fuel cs

/-- Collapse every run of two or more spaces to one. -/
def collapseSpaces (s : Str) : Str :=
  collapseSpacesGo s.length s

/-- Python `'\n'.join(lines)`. -/
def joinNl : List Str → Str
  | [] => []
  | [l] => l
  | l :: l2 :: ls => l ++ '\n' :: joinNl (l2 :: ls)

/-- Embedding of `DocumentParser._normalize_whitespace`: collapse newline
runs, collapse space runs, strip every line, strip the whole text. -/
def normalizeWhitespace (s : Str) : Str :=
  pyStrip (joinNl ((splitChar '\n' (collapseSpaces (collapseNewlines s))).map pyStrip))

/-- One step of `re.sub(r'<at[^>]*>([^<]*)</at>', r'@\1', text)`
(case-sensitive: this substitution is compiled without flags): if the
pattern matches at the head of `s`, return the captured mention text and
the suffix after `</at>`. -/
def matchAtTag (s : Str) : Option (Str × Str) :=
  match s with
  | '<' :: 'a' :: 't' :: rest =>
    let attrs := rest.takeWhile (fun c => c ≠ '>')
    match rest.drop attrs.length with
    | '>' :: after =>
      let inner := after.takeWhile (fun c => c ≠ '<')
      let tail := after.drop inner.length
      if tail.take 5 = "</at>".data then some (inner, tail.drop 5) else none
    | _ => none
  | _ => none

theorem matchAtTag_shrinks (s inner rest : Str) (h : matchAtTag s = some (inner, rest)) :
    rest.length < s.length := by
  unfold matchAtTag at h
  split at h
  case _ r =>
    dsimp only at h
    split at h
    case _ after hd =>
      split at h
      case isTrue ht =>
        have h2 : rest = (after.drop (after.takeWhile (fun c => c ≠ '<')).length).drop 5 := by
          have := h
          simp only [Option.some.injEq, Prod.mk.injEq] at this
          exact this.2.symm
        have h3 : after.length < r.length + 1 := by
          have hlen : ('>' :: after).length = (r.drop (r.takeWhile (fun c => c ≠ '>')).length).length := by
            rw [hd]
          rw [List.length_cons, List.length_drop] at hlen
          omega
        have h4 : ((after.drop (after.takeWhile (fun c => c ≠ '<')).length).drop 5).length ≤
            after.length := by
          rw [List.length_drop, List.length_drop]; omega
        rw [h2]
        simp only [List.length_cons]
        omega
      case isFalse => exact absurd h (by simp)
    case _ => exact absurd h (by simp)
  case _ => exact absurd h (by simp)

/-- Embedding of the `@`-mention rewrite of `DocumentParser._parse_chat`:
replace every `<at ...>name</at>` with `@name`, scanning left to right. -/
def atMentionSub : Str → Str
  | [] => []
  | c :: cs =>
    match h : matchAtTag (c :: cs) with
    | some (inner, rest) => '@' :: inner ++ atMentionSub rest
    | none => c :: atMentionSub cs
termination_by s => s.length
decreasing_by
  · exact matchAtTag_shrinks _ _ _ h
  · simp only [List.length_cons]; omega

/-- Embedding of `DocumentParser._parse_email`.  `htmlToText` is the
html2text/BeautifulSoup conversion, an external library modelled as an
oracle. -/
def parseEmail (htmlToText : Str → Str) (body : Str) : Str :=
  let text := if isHtml body then htmlToText body else body
  normalizeWhitespace (trimQuotedReplies (removeEmailSignature text))

/-- Embedding of `DocumentParser._parse_chat`. -/
def parseChat (htmlToText : Str → Str) (body : Str) : Str :=
  let text := if isHtml body then htmlToText body else body
  normalizeWhitespace (atMentionSub text)

/-- Embedding of `DocumentParser._parse_generic`. -/
def parseGeneric (htmlToText : Str → Str) (body : Str) : Str :=
  let text := if isHtml body then htmlToText body else body
  normalizeWhitespace text

namespace DocumentParser

/-- Embedding of `DocumentParser.parse`: route on the source kind and
return the document with the body replaced and every other field
untouched.  The embedded cleaners are total, so the `except` fallback that
returns the original document is unreachable in the model. -/
def parse (htmlToText : Str → Str) (doc : RawDocument) : RawDocument :=
  let body :=
    if doc.source.isEmail then parseEmail htmlToText doc.body
    else if doc.source.isChat then parseChat htmlToText doc.body
    else parseGeneric htmlToText doc.body
  { doc with body := body }

end DocumentParser

/-! ## Embedding generation (`storage/embeddings.py`)

Vector values are opaque to every control path of the source (only the
external engines look inside them), so embedding vectors are modelled by
an abstract stand-in type `Vec`. -/

/-- Stand-in for an embedding vector (`list[float]`); the float values are
never inspected by the embedded code. -/
abbrev Vec := List Int

/-- The two failure classes of a provider batch call:
`voyageai.error.RateLimitError` and every other exception. -/
inductive EmbedError where
  | rateLimit (msg : Str)
  | other (msg : Str)
deriving DecidableEq, Repr

namespace EmbeddingGenerator

/-- The `MAX_BATCH_SIZE` class constant. -/
def maxBatchSize : Nat := 128

/-- The batching loop `for i in range(0, len(texts), MAX_BATch_SIZE)`:
consecutive slices of at most 128 texts. -/
def toBatches : List Str → List (List Str)
  | [] => []
  | t :: ts => (t :: ts).take maxBatchSize :: toBatches ((t :: ts).drop maxBatchSize)
termination_by l => l.length
decreasing_by
  simp only [maxBatchSize, List.length_cons, List.length_drop]
  omega

/-- The wait (seconds) computed by
`wait_exponential(multiplier=1, min=2, max=60)` before the retry that
follows the failure of attempt `n`. -/
def backoffWait (n : Nat) : Nat :=
  min 60 (max 2 (2 ^ n))

/-- Outcome of `_embed_batch` under its tenacity `retry` decorator:
either a success with the attempts used and the waits slept, or
exhaustion of the attempt ceiling with the last error. -/
inductive RetryOutcome (α : Type) where
  | ok (value : α) (attemptsUsed : Nat) (waits : List Nat)
  | exhausted (last : EmbedError) (waits : List Nat)
deriving Repr, DecidableEq

/-- The tenacity retry loop of `_embed_batch`:
`stop=stop_after_attempt(5)` stops once the failed attempt number reaches
five; the decorator has no `retry=` predicate, so EVERY exception class is
retried (the two `except` clauses of the body both re-raise and differ
only in logging).  `attempts n` is the provider outcome of attempt `n`
(1-based). -/
def retryGo (attempts : Nat → Except EmbedError α) : Nat → Nat → List Nat → RetryOutcome α
  | _, 0, waits => .exhausted (.other "out of fuel".data) waits
  | n, fuel + 1, waits =>
    match attempts n with
    | .ok a => .ok a n waits
    | .error e =>
      if n ≥ 5 then .exhausted e waits
      else retryGo attempts (n + 1) fuel (waits ++ [backoffWait n])

/-- Embedding of `_embed_batch` as decorated: run the retry loop from
attempt 1 with fuel covering the five-attempt ceiling. -/
def embedBatch (attempts : Nat → Except EmbedError α) : RetryOutcome α :=
  retryGo attempts 1 5 []

/-- Embedding of `EmbeddingGenerator.embed_texts`: empty input short-
circuits to `[]`; otherwise each batch of at most 128 texts goes through
`_embed_batch` and the results are concatenated in input order.
`call batch n` is the provider response for `batch` on attempt `n`;
exhaustion of a batch's retries propagates as an error. -/
def embedTextsGo (call : List Str → Nat → Except EmbedError (List Vec)) :
    List (List Str) → Except EmbedError (List Vec)
  | [] => .ok []
  | b :: bs =>
    match embedBatch (call b) with
    | .exhausted e _ => .error e
    | .ok vs _ _ =>
      match embedTextsGo call bs with
      | .error e => .error e
      | .ok rest => .ok (vs ++ rest)

/-- Embedding of `EmbeddingGenerator.embed_texts`. -/
def embedTexts (call : List Str → Nat → Except EmbedError (List Vec)) (texts : List Str) :
    Except EmbedError (List Vec) :=
  match texts with
  | [] => .ok []
  | _ => embedTextsGo call (toBatches texts)

/-- Embedding of `EmbeddingGenerator.embed_chunks`: embed the chunk
contents in document mode and zip the chunks with their vectors. -/
def embedChunks (call : List Str → Nat → Except EmbedError (List Vec))
    (chunks : List DocumentChunk) : Except EmbedError (List (DocumentChunk × Vec)) :=
  match embedTexts call (chunks.map (fun c => c.content)) with
  | .error e => .error e
  | .ok vs => .ok (chunks.zip vs)

end EmbeddingGenerator

/-! ## Vector storage (`storage/vector.py`)

The Qdrant engine is external; its documented behaviour is modelled: a
collection is an isolated bag of points, `search(collection_name=...)`
reads only the named collection, scores points against the query vector
(the scoring function is an oracle parameter), applies the filter and the
threshold, and returns at most `limit` results ordered by score. -/

/-- A stored Qdrant point: id, vector, and the payload fields built by
`VectorStore.upsert` from a pipeline chunk (`source_type` defaults to
`"unknown"` since chunk metadata carries a `source` key, not
`source_type`; `created_at`, `from_email` and `to_email` are `None` for
pipeline chunks and are removed from the payload by the `None` filter). -/
structure VPoint where
  id : Str
  vector : Vec
  documentId : Str
  tenantId : Str
  chunkIndex : Nat
  content : Str
  sourceType : Str
  title : Option Str
  source : Str
  sourceId : Str
  timestamp : Nat
  threadId : Option Str
deriving DecidableEq, Repr

/-- The whole vector database: entries tagged with the collection name
that owns them. -/
abbrev VectorDB := List (Str × VPoint)

/-- A value in a metadata filter: a scalar (equality) or a list
("any of"). -/
inductive FilterVal where
  | scalar (v : Str)
  | anyOf (vs : List Str)
deriving DecidableEq, Repr

/-- A search result row as assembled by `VectorStore.search` (`metadata`
sub-dict paths not needed by the claims are carried by the point). -/
structure SearchResult where
  id : Str
  score : Int
  content : Str
  documentId : Str
  sourceType : Str
  rerankScore : Option Int := none
deriving DecidableEq, Repr

namespace VectorStore

/-- Embedding of `VectorStore._collection_name`: `f"evergreen_{tenant_id}"`. -/
def collectionName (tenantId : Str) : Str :=
  "evergreen_".data ++ tenantId

/-- Payload construction of `VectorStore.upsert` for one `(chunk, vector)`
pair. -/
def pointOf (pair : DocumentChunk × Vec) : VPoint :=
  { id := pair.1.id
    vector := pair.2
    documentId := pair.1.documentId
    tenantId := pair.1.tenantId
    chunkIndex := pair.1.chunkIndex
    content := pair.1.content
    sourceType := "unknown".data
    title := pair.1.meta.title
    source := pair.1.meta.source
    sourceId := pair.1.meta.sourceId
    timestamp := pair.1.meta.timestamp
    threadId := pair.1.meta.threadId }

/-- Embedding of `VectorStore.upsert`: no-op on an empty pair list, else
write every point into the tenant's own collection and return the count. -/
def upsert : VectorDB → Str → List (DocumentChunk × Vec) → VectorDB × Nat
  | db, _, [] => (db, 0)
  | db, tenantId, p :: ps =>
    (db ++ (((p :: ps).map pointOf).map (fun q => (collectionName tenantId, q))),
      (p :: ps).length)

/-- Payload lookup for filter evaluation (scalar string fields). -/
def payloadGet (p : VPoint) : Str → Option Str
  | k =>
    if k = "document_id".data then some p.documentId
    else if k = "tenant_id".data then some p.tenantId
    else if k = "content".data then some p.content
    else if k = "source_type".data then some p.sourceType
    else if k = "source".data then some p.source
    else if k = "source_id".data then some p.sourceId
    else if k = "title".data then p.title
    else if k = "thread_id".data then p.threadId
    else none

/-- One `FieldCondition`: equality for a scalar value, `MatchAny` for a
list value; conditions combine with `AND` (`Filter(must=...)`). -/
def matchesCond (p : VPoint) : Str × FilterVal → Bool
  | (k, .scalar v) => payloadGet p k == some v
  | (k, .anyOf vs) =>
    match payloadGet p k with
    | some v => vs.contains v
    | none => false

/-- Embedding of `VectorStore.search`: read only the tenant's collection,
apply the filters and the optional score threshold, order by score
(descending, computed by the engine's similarity, an oracle `scoreFn`),
and return at most `limit` rows. -/
def search (scoreFn : Vec → Vec → Int) (db : VectorDB) (tenantId : Str) (queryVec : Vec)
    (limit : Nat) (scoreThreshold : Option Int) (filters : List (Str × FilterVal)) :
    List SearchResult :=
  let pts0 : List VPoint :=
    (db.filter (fun e => e.1 == collectionName tenantId)).map (fun e => e.2)
  let pts1 : List VPoint := pts0.filter (fun p => filters.all (matchesCond p))
  let pts : List VPoint :=
    match scoreThreshold with
    | some th => pts1.filter (fun p => decide (th ≤ scoreFn queryVec p.vector))
    | none => pts1
  ((pts.mergeSort
        (fun a b => decide (scoreFn queryVec b.vector ≤ scoreFn queryVec a.vector))).take
      limit).map
    (fun (p : VPoint) =>
      { id := p.id
        score := scoreFn queryVec p.vector
        content := p.content
        documentId := p.documentId
        sourceType := p.sourceType })

end VectorStore

/-! ## Graph storage (`storage/graph.py`)

The FalkorDB engine is external; the effect of the Cypher queries issued
by `GraphStore` is modelled on an explicit per-tenant graph state
following standard Cypher `MERGE` / `MATCH` / `CREATE` semantics. -/

/-- The `Entity` pydantic model (the fields read by the graph store and
the orchestrator; `metadata` is restricted to the scalar string
properties that `create_entity` copies, and is assumed not to carry the
reserved `mention_count` key). -/
structure Entity where
  id : Str
  tenantId : Str
  type : Str
  name : Str
  metadata : List (Str × Str)
deriving DecidableEq, Repr

/-- The `EntityMention` pydantic model (produced by the extractor,
collected and then dropped by the orchestrator). -/
structure EntityMention where
  entityId : Str
  documentId : Str
  chunkId : Str
  startChar : Nat
  endChar : Nat
  context : Str
deriving DecidableEq, Repr

/-- An `:Entity` node as stored by `GraphStore.create_entity`: on create
the node receives the `id`, `name`, `type`, `tenant_id` properties and
the metadata scalars, with no `mention_count` property; on match only
`mention_count` is touched. -/
structure GNode where
  id : Str
  name : Str
  type : Str
  tenantId : Str
  mentionCount : Option Nat
  extra : List (Str × Str)
deriving DecidableEq, Repr

/-- A `MENTIONED_IN` edge between an entity node (by its `id` property)
and a `:Document` node. -/
structure MentionEdge where
  entityId : Str
  docId : Str
  mentionText : Option Str
  position : Option Nat
deriving DecidableEq, Repr

/-- One tenant's graph: entity nodes, document nodes, mention edges. -/
structure TenantGraph where
  entities : List GNode
  docs : List Str
  mentions : List MentionEdge
deriving DecidableEq, Repr

/-- The empty graph a fresh graph name designates. -/
def TenantGraph.empty : TenantGraph :=
  ⟨[], [], []⟩

/-- The whole graph database: graphs by name, as selected by
`self._client.select_graph(...)`. -/
abbrev GraphDB := List (Str × TenantGraph)

/-- A row of `find_entities_by_name`: the `id`/`name`/`type` properties
pulled out of a matched node. -/
structure EntityRow where
  id : Str
  name : Str
  type : Str
deriving DecidableEq, Repr

/-- Contiguous-substring test (Cypher `CONTAINS`). -/
def hasSub (pat : Str) : Str → Bool
  | [] => pat.isEmpty
  | c :: cs => pat.isPrefixOf (c :: cs) || hasSub pat cs

namespace GraphStore

/-- Embedding of `GraphStore._graph_name`: `f"evergreen_{tenant_id}"`. -/
def graphName (tenantId : Str) : Str :=
  "evergreen_".data ++ tenantId

/-- Fetch the tenant's graph (a name never written yet designates the
empty graph). -/
def getGraph : GraphDB → Str → TenantGraph
  | [], _ => TenantGraph.empty
  | e :: es, tenantId =>
    if e.1 == graphName tenantId then e.2 else getGraph es tenantId

/-- Store back the tenant's graph (replace the named entry, or append a
fresh one). -/
def putGraph : GraphDB → Str → TenantGraph → GraphDB
  | [], tenantId, g => [(graphName tenantId, g)]
  | e :: es, tenantId, g =>
    if e.1 == graphName tenantId then (e.1, g) :: es else e :: putGraph es tenantId g

/-- Effect of the `create_entity` Cypher on one tenant graph:
`MERGE (e:Entity {name: $name, type: $type})` matches every node with
that name and type; `ON MATCH` increments `mention_count` (through
`COALESCE(.., 0)`) on each matched node; `ON CREATE` stores the props.
The Python function returns `str(entity.id)` unconditionally. -/
def createEntityOn (g : TenantGraph) (e : Entity) : TenantGraph × Str :=
  if g.entities.any (fun n => n.name == e.name && n.type == e.type) then
    ({ g with
        entities :=
          g.entities.map (fun n =>
            if n.name == e.name && n.type == e.type then
              { n with mentionCount := some (n.mentionCount.getD 0 + 1) }
            else n) },
      e.id)
  else
    ({ g with
        entities :=
          g.entities ++
            [{ id := e.id, name := e.name, type := e.type, tenantId := e.tenantId
               mentionCount := none, extra := e.metadata }] },
      e.id)

/-- Embedding of `GraphStore.create_entity`. -/
def createEntity (db : GraphDB) (tenantId : Str) (e : Entity) : GraphDB × Str :=
  (putGraph db tenantId (createEntityOn (getGraph db tenantId) e).1,
    (createEntityOn (getGraph db tenantId) e).2)

/-- Effect of the two `link_entity_to_document` Cypher queries on one
tenant graph: `MERGE` the `:Document` node, then
`MATCH (e:Entity {id: $entity_id}) MATCH (d:Document {id: $doc_id})
CREATE (e)-[:MENTIONED_IN]->(d)` — one edge per matched entity node, and
no edge at all when no entity node carries that `id` property. -/
def linkEntityToDocumentOn (g : TenantGraph) (entityId docId : Str)
    (mentionText : Option Str) (position : Option Nat) : TenantGraph :=
  let g1 := { g with docs := if g.docs.contains docId then g.docs else g.docs ++ [docId] }
  { g1 with
      mentions :=
        g1.mentions ++
          (g1.entities.filter (fun n => n.id == entityId)).map
            (fun _ => ⟨entityId, docId, mentionText, position⟩) }

/-- Embedding of `GraphStore.link_entity_to_document`. -/
def linkEntityToDocument (db : GraphDB) (tenantId : Str) (entityId docId : Str)
    (mentionText : Option Str) (position : Option Nat) : GraphDB :=
  putGraph db tenantId
    (linkEntityToDocumentOn (getGraph db tenantId) entityId docId mentionText position)

/-- Embedding of `GraphStore.find_entities_by_name`: match the tenant
graph's entity nodes whose name `CONTAINS` the pattern (and the type when
given), up to `limit` rows. -/
def findEntitiesByName (db : GraphDB) (tenantId : Str) (namePattern : Str)
    (entityType : Option Str) (limit : Nat) : List EntityRow :=
  let g := getGraph db tenantId
  let nodes : List GNode :=
    match entityType with
    | some ty => g.entities.filter (fun n => hasSub namePattern n.name && n.type == ty)
    | none => g.entities.filter (fun n => hasSub namePattern n.name)
  (nodes.take limit).map (fun (n : GNode) => { id := n.id, name := n.name, type := n.type })

end GraphStore

/-! ## Ingestion orchestration (`ingestion/orchestrator.py`)

`ingest` sequences parse → chunk → extract → embed → vector upsert →
graph writes inside one `try`, catching every exception at the top.  The
extractor, the embedding provider and the reachability of the two stores
are oracles (`IngestEnv`); the storage side effects actually issued
before a failure are reported in an append-only effect list, which is
what the source's absence of any rollback code corresponds to. -/

/-- The `DocumentStatus` enum. -/
inductive DocumentStatus where
  | pending | processing | indexed | failed
deriving DecidableEq, Repr

/-- The `IndexedDocument` pydantic model. -/
structure IndexedDocument where
  id : Str
  tenantId : Str
  source : DataSource
  sourceId : Str
  title : Option Str
  status : DocumentStatus
  chunkIds : List Str
  entityIds : List Str
  timestamp : Nat
  indexedAt : Option Nat
  errorMessage : Option Str
deriving DecidableEq, Repr

/-- A storage write issued by `ingest`, in issue order. -/
inductive Effect where
  | vectorUpsert (tenantId : Str) (points : List VPoint)
  | schemaEnsured (tenantId : Str)
  | entityCreated (tenantId : Str) (e : Entity)
  | entityLinked (tenantId : Str) (entityId docId : Str)
deriving DecidableEq, Repr

/-- Oracles for the stages of `ingest` whose outcome the orchestrator does
not compute itself: the NER extractor, the embedding provider, and the
success or failure of each storage call (an `Except.error` is the
stringified exception the Python call would raise). -/
structure IngestEnv where
  htmlToText : Str → Str
  extract : DocumentChunk → Except Str (List Entity × List EntityMention)
  embedChunks : List DocumentChunk → Except Str (List (DocumentChunk × Vec))
  upsertOutcome : Except Str Unit
  schemaOutcome : Except Str Unit
  createOutcome : Entity → Except Str Unit
  linkOutcome : Str → Str → Except Str Unit
  now : Nat

namespace IngestionOrchestrator

/-- The `failed` record built by the top-level `except` clause. -/
def failedDoc (doc : RawDocument) (msg : Str) : IndexedDocument :=
  { id := doc.id
    tenantId := doc.tenantId
    source := doc.source
    sourceId := doc.sourceId
    title := doc.title
    status := .failed
    chunkIds := []
    entityIds := []
    timestamp := doc.timestamp
    indexedAt := none
    errorMessage := some msg }

/-- Stage 3 of `ingest`: extract entities from every chunk in order,
accumulating `all_entities` and `all_mentions`; the third component is
the loop variable `entities` of the final iteration, which stays unbound
(`none`) when there is no chunk — the success log line reads it. -/
def extractLoop (ex : DocumentChunk → Except Str (List Entity × List EntityMention)) :
    List DocumentChunk → List Entity × List EntityMention × Option (List Entity) →
    Except Str (List Entity × List EntityMention × Option (List Entity))
  | [], st => .ok st
  | c :: cs, (es, ms, _) =>
    match ex c with
    | .error e => .error e
    | .ok (ents, mens) => extractLoop ex cs (es ++ ents, ms ++ mens, some ents)

/-- Stage 6 of `ingest`: for each extracted entity, `create_entity` then
`link_entity_to_document(tenant, entity_id, str(document.id))`, where
`entity_id` is the string `create_entity` returned — which is always
`str(entity.id)`.  `entity_ids` collects `entity.id`.  Returns the
effects issued and either the collected ids or the first error. -/
def graphLoop (env : IngestEnv) (tenantId docId : Str) :
    List Entity → List Str → List Effect × Except Str (List Str)
  | [], ids => ([], .ok ids)
  | e :: es, ids =>
    match env.createOutcome e with
    | .error err => ([], .error err)
    | .ok _ =>
      match env.linkOutcome e.id docId with
      | .error err => ([.entityCreated tenantId e], .error err)
      | .ok _ =>
        let (effs, r) := graphLoop env tenantId docId es (ids ++ [e.id])
        (.entityCreated tenantId e :: .entityLinked tenantId e.id docId :: effs, r)

/-- Embedding of `IngestionOrchestrator.ingest` (constructed with the
default components, so the chunker runs with the per-source default
configurations).  Returns the terminal `IndexedDocument` and the storage
effects issued. -/
def ingest (env : IngestEnv) (doc : RawDocument) : IndexedDocument × List Effect :=
  let parsed := DocumentParser.parse env.htmlToText doc
  let chunks := SemanticChunker.chunk none parsed
  match extractLoop env.extract chunks ([], [], none) with
  | .error e => (failedDoc doc e, [])
  | .ok (allEntities, _allMentions, lastEntities) =>
    match env.embedChunks chunks with
    | .error e => (failedDoc doc e, [])
    | .ok chunkEmbeddings =>
      match env.upsertOutcome with
      | .error e => (failedDoc doc e, [])
      | .ok _ =>
        let effUp := Effect.vectorUpsert doc.tenantId (chunkEmbeddings.map VectorStore.pointOf)
        let chunkIds := chunks.map (fun c => c.id)
        match env.schemaOutcome with
        | .error e => (failedDoc doc e, [effUp])
        | .ok _ =>
          match graphLoop env doc.tenantId doc.id allEntities [] with
          | (effs, .error e) => (failedDoc doc e, effUp :: .schemaEnsured doc.tenantId :: effs)
          | (effs, .ok entityIds) =>
            match lastEntities with
            | none =>
              (failedDoc doc "name 'entities' is not defined".data,
                effUp :: .schemaEnsured doc.tenantId :: effs)
            | some _ =>
              ({ id := doc.id
                 tenantId := doc.tenantId
                 source := doc.source
                 sourceId := doc.sourceId
                 title := doc.title
                 status := .indexed
                 chunkIds := chunkIds
                 entityIds := entityIds
                 timestamp := doc.timestamp
                 indexedAt := some env.now
                 errorMessage := none },
                effUp :: .schemaEnsured doc.tenantId :: effs)

end IngestionOrchestrator

/-! ## Retrieval engine (`retrieval/engine.py`)

`query` sequences query embedding → vector search → optional rerank →
graph augmentation → synthesis.  The Cohere reranker and the Anthropic
LLM are external and are modelled as oracles; whether the LLM was
actually called is returned alongside the result so that the model makes
the "synthesis skipped" behaviour observable. -/

/-- The `QueryResult` dataclass; `confidence` is a rational stand-in for
the Python float (the source only ever computes it from exact decimal
literals). -/
structure QueryResult where
  answer : Str
  sources : List SearchResult
  entities : List EntityRow
  confidence : ℚ
  reasoning : Option Str
deriving DecidableEq, Repr

namespace RetrievalEngine

/-- The canned answer of `_synthesize_answer` for an empty source list. -/
def noInfoAnswer : Str :=
  "I couldn".data ++ [Char.ofNat 39] ++ "t find relevant information to answer your question.".data

/-- The fallback answer when the LLM call raises. -/
def synthesisFailedAnswer : Str :=
  "I found relevant information but had trouble summarizing it. Please try again.".data

/-- Render a natural number in decimal (`f"{i}"` of the source-numbering
loop). -/
def natStr (n : Nat) : Str :=
  Nat.toDigits 10 n

/-- The per-source context block of the synthesis prompt
(`f"\n[Source {i}]\nContent: ...\nType: ...\nDate: ...\n"`; pipeline
points carry no `created_at` payload key, so `metadata.get('created_at',
'unknown')` yields `unknown`). -/
def sourceBlock (i : Nat) (s : SearchResult) : Str :=
  "\n[Source ".data ++ natStr i ++ "]\nContent: ".data ++ s.content ++
    "\nType: ".data ++ s.sourceType ++ "\nDate: unknown\n".data

/-- The numbered context of the synthesis prompt
(`"\n".join(context_parts)` over `enumerate(sources, 1)`). -/
def contextOf (sources : List SearchResult) : Str :=
  List.intercalate ['\n'] ((List.range sources.length).zip sources |>.map
    (fun p => sourceBlock (p.1 + 1) p.2))

/-- The `Related entities:` line appended when entities were found. -/
def entityContextOf (entities : List EntityRow) : Str :=
  match entities with
  | [] => []
  | _ =>
    "\nRelated entities: ".data ++
      List.intercalate ", ".data ((entities.take 10).map (fun e => e.name))

/-- The synthesis prompt assembled by `_synthesize_answer`. -/
def promptOf (query : Str) (sources : List SearchResult) (entities : List EntityRow) : Str :=
  "You are an AI assistant helping users find information in their organization".data ++
    [Char.ofNat 39] ++ "s data.\n\nBased on the following context, answer the user".data ++
    [Char.ofNat 39] ++ "s question. Be specific and cite source numbers [1], [2], etc.\n\nContext:\n".data ++
    contextOf sources ++ ['\n'] ++ entityContextOf entities ++
    "\n\nUser Question: ".data ++ query ++
    "\n\nInstructions:\n- Answer based ONLY on the provided context\n- Cite sources using [1], [2], etc.\n- If the context doesn".data ++
    [Char.ofNat 39] ++ "t contain enough information, say so\n- Be concise but complete\n\nAnswer:".data

/-- Embedding of `_synthesize_answer`.  `llm` maps a prompt to the model
answer or to a raised error; the returned boolean records whether the
LLM was invoked (the empty-source early return happens before the client
is even constructed). -/
def synthesizeAnswer (llm : Str → Except Str Str) (query : Str)
    (sources : List SearchResult) (entities : List EntityRow) :
    (Str × Option Str × ℚ) × Bool :=
  match sources with
  | [] => ((noInfoAnswer, none, 0), false)
  | _ =>
    match llm (promptOf query sources entities) with
    | .ok answer =>
      let base : ℚ := min (9 / 10) (1 / 2 + (sources.length : ℚ) / 10)
      let lacksInfo : Bool :=
        hasSubCI ("don".data ++ [Char.ofNat 39] ++ "t have enough".data) answer ||
          hasSubCI "cannot find".data answer
      ((answer, none, if lacksInfo then 3 / 10 else base), true)
    | .error e => ((synthesisFailedAnswer, some e, 1 / 5), true)

/-- The Cohere reranker oracle: `available` is
`self._get_cohere_client() is not None`, and `call` maps the query, the
document contents and `top_n` to the `(index, relevance_score)` rows the
API returned, or to a raised error. -/
structure RerankOracle where
  available : Bool
  call : Str → List Str → Nat → Except Str (List (Nat × Int))

/-- Build the reranked rows `results[item.index] | rerank_score`; `none`
when some index is out of range (an `IndexError` inside the `try`). -/
def rerankRows (results : List SearchResult) : List (Nat × Int) → Option (List SearchResult)
  | [] => some []
  | (i, sc) :: rest =>
    match results.get? i with
    | none => none
    | some r =>
      match rerankRows results rest with
      | none => none
      | some rs => some ({ r with rerankScore := some sc } :: rs)

/-- Embedding of `RetrievalEngine._rerank`: fall back to the plain
truncation when no client is configured or the call (or the row
assembly) raises. -/
def rerank (ro : RerankOracle) (query : Str) (results : List SearchResult) (topK : Nat) :
    List SearchResult :=
  if !ro.available then results.take topK
  else
    match ro.call query (results.map (fun r => r.content)) topK with
    | .error _ => results.take topK
    | .ok items =>
      match rerankRows results items with
      | none => results.take topK
      | some rs => rs

/-- First-occurrence deduplication by entity id
(the `seen_entities` set of `_augment_with_graph`). -/
def dedupById (rows : List EntityRow) : List EntityRow :=
  (rows.foldl
    (fun (acc : List EntityRow) r =>
      if acc.any (fun s => s.id == r.id) then acc else acc ++ [r])
    [])

/-- Embedding of `RetrievalEngine._augment_with_graph`: collect the
distinct source document ids, and for each of the first few of them run
`find_entities_by_name(tenant, "", limit=10)` — the document id is not
actually used by the query, so every iteration contributes the same rows
and the outcome is the deduplication of one such call whenever at least
one truthy (non-empty) document id exists (`if doc_id := r.get(...)`
skips falsy ids). -/
def augmentWithGraph (gdb : GraphDB) (tenantId : Str) (results : List SearchResult) :
    List EntityRow :=
  if results.any (fun r => !r.documentId.isEmpty) then
    dedupById (GraphStore.findEntitiesByName gdb tenantId [] none 10)
  else []

/-- Embedding of `RetrievalEngine.query`.  `embedQuery` is the provider's
query-mode embedding, `scoreFn` the engine's similarity, `useRerank` the
`self.use_rerank` flag; the boolean of the result records whether the
LLM synthesis call was invoked. -/
def query (scoreFn : Vec → Vec → Int) (vdb : VectorDB) (gdb : GraphDB)
    (embedQuery : Str → Vec) (ro : RerankOracle) (useRerank : Bool)
    (llm : Str → Except Str Str) (tenantId queryStr : Str) (topK : Nat)
    (filters : List (Str × FilterVal)) (includeGraph synthesize : Bool) :
    QueryResult × Bool :=
  let queryEmbedding := embedQuery queryStr
  let vectorResults :=
    VectorStore.search scoreFn vdb tenantId queryEmbedding (topK * 2) none filters
  let vectorResults2 :=
    if useRerank && !vectorResults.isEmpty then rerank ro queryStr vectorResults topK
    else vectorResults.take topK
  let entities :=
    if includeGraph && !vectorResults2.isEmpty then augmentWithGraph gdb tenantId vectorResults2
    else []
  if synthesize then
    let ((answer, reasoning, confidence), llmUsed) :=
      synthesizeAnswer llm queryStr vectorResults2 entities
    ({ answer := answer
       sources := vectorResults2
       entities := entities
       confidence := confidence
       reasoning := reasoning }, llmUsed)
  else
    ({ answer := []
       sources := vectorResults2
       entities := entities
       confidence := 0
       reasoning := none }, false)

end RetrievalEngine

/-! ## Claim C7: batching and order preservation of `embed_texts` /
`embed_chunks` -/

namespace EmbeddingGenerator

/-- A provider whose batch calls always succeed, embedding batch `b` as
`f b` (the hypothesis of claim C7). -/
def pureCall (f : List Str → List Vec) : List Str → Nat → Except EmbedError (List Vec) :=
  fun b _ => .ok (f b)

theorem toBatches_flatten (l : List Str) : (toBatches l).flatten = l := by
  induction l using toBatches.induct with
  | case1 => simp [toBatches]
  | case2 t ts ih =>
    rw [toBatches]
    simp only [List.flatten_cons, ih]
    exact List.take_append_drop _ _

theorem toBatches_mem_size (l : List Str) (b : List Str) (hb : b ∈ toBatches l) :
    0 < b.length ∧ b.length ≤ maxBatchSize := by
  induction l using toBatches.induct with
  | case1 => simp [toBatches] at hb
  | case2 t ts ih =>
    rw [toBatches] at hb
    rcases List.mem_cons.mp hb with h | h
    · subst h
      constructor
      · simp [maxBatchSize]
      · simpa using List.length_take_le maxBatchSize (t :: ts)
    · exact ih h

theorem embedBatch_pure (f : List Str → List Vec) (b : List Str) :
    embedBatch (pureCall f b) = .ok (f b) 1 [] := rfl

theorem embedTextsGo_pure (f : List Str → List Vec) (bs : List (List Str)) :
    embedTextsGo (pureCall f) bs = .ok (bs.map f).flatten := by
  induction bs with
  | nil => rfl
  | cons b bs ih =>
    rw [embedTextsGo, embedBatch_pure, ih]
    simp

theorem embedTexts_pure (f : List Str → List Vec) (texts : List Str) :
    embedTexts (pureCall f) texts = .ok ((toBatches texts).map f).flatten := by
  cases texts with
  | nil => simp [embedTexts, toBatches]
  | cons t ts => exact embedTextsGo_pure f (toBatches (t :: ts))

theorem flatten_map_length (f : List Str → List Vec) (hf : ∀ b, (f b).length = b.length)
    (bs : List (List Str)) : ((bs.map f).flatten).length = bs.flatten.length := by
  induction bs with
  | nil => rfl
  | cons b bs ih => simp [ih, hf b]

/-- Claim C7 (confirmed).  Assuming every provider batch call returns
exactly one vector per input text, `embed_texts` splits its input into
consecutive non-empty batches of at most `MAX_BATCH_SIZE = 128` texts
whose concatenation is the input, and returns the concatenation of the
per-batch results in input order, so the output has exactly one vector
per input text; consequently `embed_chunks` returns `(chunk, vector)`
pairs with the same count and order as its input chunks. -/
theorem embed_texts_batches_and_preserves_order (f : List Str → List Vec)
    (hf : ∀ b, (f b).length = b.length) (texts : List Str) (chunks : List DocumentChunk) :
    (∀ b ∈ toBatches texts, 0 < b.length ∧ b.length ≤ maxBatchSize) ∧
    (toBatches texts).flatten = texts ∧
    (∃ vs, embedTexts (pureCall f) texts = .ok vs ∧
      vs = ((toBatches texts).map f).flatten ∧ vs.length = texts.length) ∧
    (∃ pairs, embedChunks (pureCall f) chunks = .ok pairs ∧
      pairs.map Prod.fst = chunks ∧ pairs.length = chunks.length) := by
  have hlen : ∀ (l : List Str), (((toBatches l).map f).flatten).length = l.length := by
    intro l
    rw [flatten_map_length f hf, toBatches_flatten]
  refine ⟨fun b hb => toBatches_mem_size texts b hb, toBatches_flatten texts, ?_, ?_⟩
  · exact ⟨_, embedTexts_pure f texts, rfl, hlen texts⟩
  · refine ⟨chunks.zip ((toBatches (chunks.map (fun c => c.content))).map f).flatten, ?_, ?_, ?_⟩
    · rw [embedChunks, embedTexts_pure]
    · apply List.map_fst_zip
      rw [hlen, List.length_map]
    · rw [List.length_zip, hlen, List.length_map, Nat.min_self]

/-- Witness for C7: the theorem applied to a concrete one-vector-per-text
provider, three texts and one chunk. -/
theorem embed_texts_batches_and_preserves_order_witness :
    (∃ vs, embedTexts (pureCall (fun b => b.map (fun _ => ([] : Vec))))
        ["hi".data, "there".data, "all".data] = .ok vs ∧ vs.length = 3) ∧
    (∃ pairs, embedChunks (pureCall (fun b => b.map (fun _ => ([] : Vec))))
        [SemanticChunker.createChunk
          ⟨"d".data, "t".data, .slack, "s".data, none, "hey".data, none, 0⟩
          "hey".data 0 0] = .ok pairs ∧ pairs.length = 1) := by
  have h := embed_texts_batches_and_preserves_order
    (fun b => b.map (fun _ => ([] : Vec))) (fun b => by simp)
    ["hi".data, "there".data, "all".data]
    [SemanticChunker.createChunk
      ⟨"d".data, "t".data, .slack, "s".data, none, "hey".data, none, 0⟩
      "hey".data 0 0]
  obtain ⟨-, -, ⟨vs, h1, -, h2⟩, ⟨pairs, h3, -, h4⟩⟩ := h
  exact ⟨⟨vs, h1, h2⟩, ⟨pairs, h3, h4⟩⟩

end EmbeddingGenerator

/-! ## Claim C4: retry policy of `_embed_batch` -/

namespace EmbeddingGenerator

/-- Claim C4 as stated: a batch failure that is not a rate-limit error
propagates to the caller immediately, without being retried (no second
attempt, no backoff wait). -/
def otherErrorsPropagateImmediately : Prop :=
  ∀ (attempts : Nat → Except EmbedError (List Vec)) (msg : Str),
    attempts 1 = .error (.other msg) →
    embedBatch attempts = .exhausted (.other msg) []

/-- A provider that raises a non-rate-limit error on the first attempt
and succeeds on the second. -/
def c4Attempts : Nat → Except EmbedError (List Vec) :=
  fun n => if n = 1 then .error (.other "boom".data) else .ok [[1]]

/-- Counterexample to C4 as stated: the tenacity decorator of
`_embed_batch` carries no `retry=` predicate, so a non-rate-limit
failure is retried exactly like a rate-limit one — with `c4Attempts`
the batch call succeeds on the second attempt (after a 2-second backoff
wait) instead of propagating the first error. -/
theorem embed_batch_retries_other_errors : ¬ otherErrorsPropagateImmediately := by
  intro h
  have := h c4Attempts "boom".data (by rfl)
  simp [embedBatch, retryGo, c4Attempts, backoffWait] at this

theorem retryGo_ok (attempts : Nat → Except EmbedError α) (k : Nat) (v : α) :
    ∀ (fuel n : Nat) (waits : List Nat), n ≤ k → k ≤ 5 → k - n < fuel →
    (∀ m, n ≤ m → m < k → ∃ e, attempts m = .error e) →
    attempts k = .ok v →
    retryGo attempts n fuel waits =
      .ok v k (waits ++ (List.range' n (k - n)).map backoffWait) := by
  intro fuel
  induction fuel with
  | zero => intro n waits _ _ h3 _ _; omega
  | succ fuel ih =>
    intro n waits h1 h2 h3 hfail hok
    rw [retryGo]
    by_cases hn : n = k
    · subst hn
      rw [hok]
      simp
    · obtain ⟨e, he⟩ := hfail n le_rfl (by omega)
      rw [he]
      simp only
      rw [if_neg (by omega)]
      rw [ih (n + 1) (waits ++ [backoffWait n]) (by omega) h2 (by omega)
        (fun m hm1 hm2 => hfail m (by omega) hm2) hok]
      have hr : List.range' n (k - n) = n :: List.range' (n + 1) (k - (n + 1)) := by
        have : k - n = (k - (n + 1)) + 1 := by omega
        rw [this, List.range'_succ]
      rw [hr]
      simp

theorem retryGo_exhausted (attempts : Nat → Except EmbedError α) (e : EmbedError) :
    ∀ (fuel n : Nat) (waits : List Nat), 1 ≤ n → n ≤ 5 → 5 - n < fuel →
    (∀ m, n ≤ m → m < 5 → ∃ e', attempts m = .error e') →
    attempts 5 = .error e →
    retryGo attempts n fuel waits =
      .exhausted e (waits ++ (List.range' n (5 - n)).map backoffWait) := by
  intro fuel
  induction fuel with
  | zero => intro n waits _ _ h3 _ _; omega
  | succ fuel ih =>
    intro n waits h1 h2 h3 hfail hok
    rw [retryGo]
    by_cases hn : n = 5
    · subst hn
      rw [hok]
      simp
    · obtain ⟨e', he⟩ := hfail n le_rfl (by omega)
      rw [he]
      simp only
      rw [if_neg (by omega)]
      rw [ih (n + 1) (waits ++ [backoffWait n]) (by omega) (by omega) (by omega)
        (fun m hm1 hm2 => hfail m (by omega) hm2) hok]
      have hr : List.range' n (5 - n) = n :: List.range' (n + 1) (5 - (n + 1)) := by
        have : 5 - n = (5 - (n + 1)) + 1 := by omega
        rw [this, List.range'_succ]
      rw [hr]
      simp

/-- Claim C4 (corrected).  `_embed_batch` is retried with exponential
backoff (`wait_exponential(multiplier=1, min=2, max=60)`) up to the
fixed ceiling of five attempts — but uniformly for EVERY exception
class, not only for rate-limit errors: the decorator has no `retry=`
predicate and both `except` clauses re-raise.  A call that first
succeeds on attempt `k ≤ 5` returns that success after `k - 1` backoff
waits `2^1, 2^2, …` (clamped to `[2, 60]`); five failures in a row
exhaust the retries and surface the final error. -/
theorem embed_batch_uniform_retry_with_backoff
    (attempts : Nat → Except EmbedError (List Vec)) :
    (∀ k v, 1 ≤ k → k ≤ 5 →
      (∀ m, 1 ≤ m → m < k → ∃ e, attempts m = .error e) →
      attempts k = .ok v →
      embedBatch attempts = .ok v k ((List.range' 1 (k - 1)).map backoffWait)) ∧
    (∀ e, (∀ m, 1 ≤ m → m < 5 → ∃ e', attempts m = .error e') →
      attempts 5 = .error e →
      embedBatch attempts = .exhausted e ((List.range' 1 4).map backoffWait)) := by
  constructor
  · intro k v hk1 hk5 hfail hok
    rw [embedBatch, retryGo_ok attempts k v 5 1 [] hk1 hk5 (by omega) hfail hok]
    simp
  · intro e hfail hok
    rw [embedBatch, retryGo_exhausted attempts e 5 1 [] le_rfl (by omega) (by omega) hfail hok]
    simp

/-- Witness for the amended C4: a provider failing with a rate-limit
error then a generic error then succeeding on attempt 3 is retried
through both failures, with backoff waits 2 and 4 seconds. -/
theorem embed_batch_uniform_retry_with_backoff_witness :
    embedBatch (fun n =>
        if n = 1 then .error (.rateLimit "slow down".data)
        else if n = 2 then .error (.other "boom".data)
        else .ok ([[7]] : List Vec)) =
      .ok ([[7]] : List Vec) 3 [2, 4] := by
  have h := (embed_batch_uniform_retry_with_backoff (fun n =>
    if n = 1 then .error (.rateLimit "slow down".data)
    else if n = 2 then .error (.other "boom".data)
    else .ok ([[7]] : List Vec))).1 3 [[7]] (by omega) (by omega)
    (fun m hm1 hm2 => by
      interval_cases m
      · exact ⟨.rateLimit "slow down".data, rfl⟩
      · exact ⟨.other "boom".data, rfl⟩)
    (by rfl)
  exact h.trans (by decide)

end EmbeddingGenerator

/-! ## Claims C9 and C10: merge-on-create entity semantics -/

namespace GraphStore

theorem graphName_inj (a b : Str) (h : graphName a = graphName b) : a = b :=
  List.append_cancel_left h

theorem getGraph_putGraph_same (db : GraphDB) (t : Str) (g : TenantGraph) :
    getGraph (putGraph db t g) t = g := by
  induction db with
  | nil => simp [putGraph, getGraph]
  | cons e es ih =>
    rw [putGraph]
    by_cases he : (e.1 == graphName t) = true
    · rw [if_pos he, getGraph, if_pos he]
    · rw [if_neg he, getGraph, if_neg he, ih]

theorem getGraph_putGraph_other (db : GraphDB) (t t' : Str) (g : TenantGraph)
    (h : t ≠ t') : getGraph (putGraph db t g) t' = getGraph db t' := by
  have hne : graphName t ≠ graphName t' := fun hc => h (graphName_inj _ _ hc)
  induction db with
  | nil =>
    show (if graphName t == graphName t' then g else getGraph [] t') = getGraph [] t'
    rw [if_neg (by simpa using hne)]
  | cons e es ih =>
    rw [putGraph]
    by_cases he : (e.1 == graphName t) = true
    · have he1 : e.1 = graphName t := by simpa using he
      have hne2 : ¬ (e.1 == graphName t') = true := by simp [he1, hne]
      rw [if_pos he]
      show (if e.1 == graphName t' then g else getGraph es t') = getGraph (e :: es) t'
      rw [if_neg hne2, getGraph, if_neg hne2]
    · rw [if_neg he, getGraph, getGraph]
      by_cases he' : (e.1 == graphName t') = true
      · rw [if_pos he', if_pos he']
      · rw [if_neg he', if_neg he', ih]

/-- The stored node `create_entity` writes on its `ON CREATE` branch. -/
def freshNode (e : Entity) : GNode :=
  { id := e.id, name := e.name, type := e.type, tenantId := e.tenantId
    mentionCount := none, extra := e.metadata }

/-- Claim C9 (confirmed).  Calling `create_entity` twice with entities
carrying the same `(name, type)` key in the same tenant, starting from a
tenant graph with no node of that key, leaves exactly one node with that
key — the node created by the first call, with its `mention_count`
incremented by the second call (from unset, coalesced to 0, to 1) — and
grows the graph by one node, not two. -/
theorem create_entity_merges_on_second_call (db : GraphDB) (t : Str) (e1 e2 : Entity)
    (hname : e2.name = e1.name) (htype : e2.type = e1.type)
    (h0 : ∀ n ∈ (getGraph db t).entities, ¬(n.name = e1.name ∧ n.type = e1.type)) :
    (getGraph (createEntity (createEntity db t e1).1 t e2).1 t).entities =
      (getGraph db t).entities ++ [{ freshNode e1 with mentionCount := some 1 }] ∧
    ((getGraph (createEntity (createEntity db t e1).1 t e2).1 t).entities.filter
        (fun n => n.name == e1.name && n.type == e1.type)).length = 1 ∧
    (getGraph (createEntity (createEntity db t e1).1 t e2).1 t).entities.length =
      (getGraph db t).entities.length + 1 := by
  have hany : (getGraph db t).entities.any
      (fun n => n.name == e1.name && n.type == e1.type) = false := by
    rw [List.any_eq_false]
    intro n hn
    have := h0 n hn
    simp only [Bool.and_eq_true, beq_iff_eq]
    tauto
  have h2 : getGraph (createEntity db t e1).1 t =
      { getGraph db t with entities := (getGraph db t).entities ++ [freshNode e1] } := by
    show getGraph (putGraph db t (createEntityOn (getGraph db t) e1).1) t = _
    rw [getGraph_putGraph_same, createEntityOn]
    rw [hany]
    rfl
  have hany2 : ((getGraph db t).entities ++ [freshNode e1]).any
      (fun n => n.name == e2.name && n.type == e2.type) = true := by
    rw [List.any_append]
    simp [freshNode, hname, htype]
  have hmap : ((getGraph db t).entities ++ [freshNode e1]).map
      (fun n =>
        if n.name == e2.name && n.type == e2.type then
          { n with mentionCount := some (n.mentionCount.getD 0 + 1) }
        else n) =
      (getGraph db t).entities ++ [{ freshNode e1 with mentionCount := some 1 }] := by
    rw [List.map_append]
    congr 1
    · have hcongr : ∀ n ∈ (getGraph db t).entities,
          (if n.name == e2.name && n.type == e2.type then
            { n with mentionCount := some (n.mentionCount.getD 0 + 1) }
          else n) = n := by
        intro n hn
        have hnkey := h0 n hn
        have hcond : ¬ (n.name == e2.name && n.type == e2.type) = true := by
          rw [Bool.and_eq_true, beq_iff_eq, beq_iff_eq, hname, htype]
          tauto
        rw [if_neg hcond]
      rw [List.map_congr_left hcongr]
      simp
    · simp [freshNode, hname, htype]
  have h3 : (getGraph (createEntity (createEntity db t e1).1 t e2).1 t).entities =
      (getGraph db t).entities ++ [{ freshNode e1 with mentionCount := some 1 }] := by
    show (getGraph (putGraph (createEntity db t e1).1 t
        (createEntityOn (getGraph (createEntity db t e1).1 t) e2).1) t).entities = _
    rw [getGraph_putGraph_same, h2, createEntityOn]
    dsimp only
    rw [hany2]
    rw [if_pos rfl]
    exact hmap
  refine ⟨h3, ?_, ?_⟩
  · rw [h3]
    simp only [List.filter_append]
    have hfilt : (getGraph db t).entities.filter
        (fun n => n.name == e1.name && n.type == e1.type) = [] := by
      rw [List.filter_eq_nil_iff]
      intro n hn
      have := h0 n hn
      simp only [Bool.and_eq_true, beq_iff_eq]
      tauto
    rw [hfilt]
    simp [freshNode]
  · rw [h3]
    simp

/-- Witness for C9: two concrete entities with the same key merged into
one node in an initially empty tenant graph. -/
theorem create_entity_merges_on_second_call_witness :
    (getGraph (createEntity
        (createEntity [] "tA".data ⟨"e1".data, "tA".data, "person".data, "Jane Doe".data, []⟩).1
        "tA".data ⟨"e2".data, "tA".data, "person".data, "Jane Doe".data, []⟩).1 "tA".data).entities =
      [{ id := "e1".data, name := "Jane Doe".data, type := "person".data,
         tenantId := "tA".data, mentionCount := some 1, extra := [] }] := by
  have h := create_entity_merges_on_second_call [] "tA".data
    ⟨"e1".data, "tA".data, "person".data, "Jane Doe".data, []⟩
    ⟨"e2".data, "tA".data, "person".data, "Jane Doe".data, []⟩
    rfl rfl (by intro n hn; simp [getGraph, TenantGraph.empty, List.find?] at hn)
  have h1 := h.1
  rw [h1]
  rfl

/-- Claim C10 (confirmed, implicit).  `create_entity` always returns
`str(entity.id)` — the id of its argument — even when its `MERGE`
matched an existing node with the same `(name, type)`; in that merge
case (with the stored node carrying a different id, as fresh UUIDs do)
the stored node keeps its own id property, so the returned id equals no
stored node's id, and the orchestrator's subsequent
`link_entity_to_document` call — whose Cypher `MATCH`es entities on this
returned id — creates no `MENTIONED_IN` edge. -/
theorem create_entity_returns_argument_id (db : GraphDB) (t : Str) :
    (∀ (db' : GraphDB) (t' : Str) (e' : Entity), (createEntity db' t' e').2 = e'.id) ∧
    (∀ (e : Entity) (docId : Str),
      (∃ n ∈ (getGraph db t).entities, n.name = e.name ∧ n.type = e.type) →
      (∀ n ∈ (getGraph db t).entities, n.id ≠ e.id) →
      (getGraph (createEntity db t e).1 t).entities.map (fun n => n.id) =
        (getGraph db t).entities.map (fun n => n.id) ∧
      (∀ n ∈ (getGraph (createEntity db t e).1 t).entities, n.id ≠ (createEntity db t e).2) ∧
      (linkEntityToDocumentOn (getGraph (createEntity db t e).1 t)
          (createEntity db t e).2 docId none none).mentions =
        (getGraph (createEntity db t e).1 t).mentions) := by
  constructor
  · intro db' t' e'
    rw [createEntity]
    rw [createEntityOn]
    by_cases h : (getGraph db' t').entities.any (fun n => n.name == e'.name && n.type == e'.type)
    · rw [if_pos h]
    · rw [if_neg h]
  · intro e docId hmatch hid
    have hany : (getGraph db t).entities.any
        (fun n => n.name == e.name && n.type == e.type) = true := by
      rw [List.any_eq_true]
      obtain ⟨n, hn, h1, h2⟩ := hmatch
      exact ⟨n, hn, by simp [h1, h2]⟩
    have hret : (createEntity db t e).2 = e.id := by
      rw [createEntity, createEntityOn, if_pos hany]
    have hg : (getGraph (createEntity db t e).1 t).entities =
        (getGraph db t).entities.map
          (fun n =>
            if n.name == e.name && n.type == e.type then
              { n with mentionCount := some (n.mentionCount.getD 0 + 1) }
            else n) := by
      rw [createEntity, createEntityOn, if_pos hany]
      rw [getGraph_putGraph_same]
    have hids : ∀ n ∈ (getGraph (createEntity db t e).1 t).entities, n.id ≠ e.id := by
      intro n hn
      rw [hg] at hn
      obtain ⟨m, hm, hmn⟩ := List.mem_map.mp hn
      have := hid m hm
      by_cases hc : (m.name == e.name && m.type == e.type) = true
      · rw [if_pos hc] at hmn
        rw [← hmn]
        exact this
      · rw [if_neg (by simpa using hc)] at hmn
        rw [← hmn]
        exact this
    refine ⟨?_, ?_, ?_⟩
    · rw [hg, List.map_map]
      apply List.map_congr_left
      intro n hn
      by_cases hc : (n.name == e.name && n.type == e.type) = true
      · show (if n.name == e.name && n.type == e.type then
            { n with mentionCount := some (n.mentionCount.getD 0 + 1) }
          else n).id = n.id
        rw [if_pos hc]
      · show (if n.name == e.name && n.type == e.type then
            { n with mentionCount := some (n.mentionCount.getD 0 + 1) }
          else n).id = n.id
        rw [if_neg hc]
    · intro n hn
      rw [hret]
      exact hids n hn
    · rw [linkEntityToDocumentOn]
      have hfilt : (getGraph (createEntity db t e).1 t).entities.filter
          (fun n => n.id == (createEntity db t e).2) = [] := by
        rw [List.filter_eq_nil_iff]
        intro n hn
        rw [hret]
        simpa using hids n hn
      simp only [hfilt]
      simp

/-- Witness for C10: a merge against a pre-existing `Jane Doe` node with
a different stored id; the returned id is the argument's, and the link
call adds no mention edge. -/
theorem create_entity_returns_argument_id_witness :
    (createEntity [("evergreen_tA".data,
        ⟨[⟨"old".data, "Jane Doe".data, "person".data, "tA".data, none, []⟩], [], []⟩)]
        "tA".data ⟨"new".data, "tA".data, "person".data, "Jane Doe".data, []⟩).2 =
      "new".data ∧
    (linkEntityToDocumentOn
        (getGraph (createEntity [("evergreen_tA".data,
          ⟨[⟨"old".data, "Jane Doe".data, "person".data, "tA".data, none, []⟩], [], []⟩)]
          "tA".data ⟨"new".data, "tA".data, "person".data, "Jane Doe".data, []⟩).1 "tA".data)
        "new".data "doc1".data none none).mentions = [] := by
  have h := create_entity_returns_argument_id
    [("evergreen_tA".data,
      ⟨[⟨"old".data, "Jane Doe".data, "person".data, "tA".data, none, []⟩], [], []⟩)]
    "tA".data
  have h2 := h.2 ⟨"new".data, "tA".data, "person".data, "Jane Doe".data, []⟩ "doc1".data
    (by
      refine ⟨⟨"old".data, "Jane Doe".data, "person".data, "tA".data, none, []⟩, ?_, rfl, rfl⟩
      simp [getGraph, GraphStore.graphName, List.find?])
    (by
      intro n hn
      have hent : (getGraph [("evergreen_tA".data,
          (⟨[⟨"old".data, "Jane Doe".data, "person".data, "tA".data, none, []⟩], [], []⟩ :
            TenantGraph))] "tA".data).entities =
          [⟨"old".data, "Jane Doe".data, "person".data, "tA".data, none, []⟩] := by
        decide
      rw [hent] at hn
      rw [List.mem_singleton.mp hn]
      decide)
  have hret := h.1 [("evergreen_tA".data,
    ⟨[⟨"old".data, "Jane Doe".data, "person".data, "tA".data, none, []⟩], [], []⟩)]
    "tA".data ⟨"new".data, "tA".data, "person".data, "Jane Doe".data, []⟩
  have h3 := h2.2.2
  rw [hret] at h3
  exact ⟨hret, h3.trans (by decide)⟩

end GraphStore

/-! ## Claim C8: empty vector search short-circuits synthesis -/

namespace RetrievalEngine

/-- Claim C8 (confirmed).  Whenever the vector search of a query returns
zero results and `synthesize` is true, `query` returns a `QueryResult`
with `sources == []`, `entities == []`, `confidence == 0`, the fixed
canned no-information answer and no reasoning, and the LLM synthesis
call is never invoked. -/
theorem query_no_sources_canned_answer (scoreFn : Vec → Vec → Int) (vdb : VectorDB)
    (gdb : GraphDB) (embedQuery : Str → Vec) (ro : RerankOracle) (useRerank : Bool)
    (llm : Str → Except Str Str) (tenantId queryStr : Str) (topK : Nat)
    (filters : List (Str × FilterVal)) (includeGraph : Bool)
    (hsearch : VectorStore.search scoreFn vdb tenantId (embedQuery queryStr) (topK * 2)
        none filters = []) :
    query scoreFn vdb gdb embedQuery ro useRerank llm tenantId queryStr topK filters
        includeGraph true =
      ({ answer := noInfoAnswer, sources := [], entities := [], confidence := 0,
         reasoning := none }, false) := by
  rw [query]
  rw [hsearch]
  simp [synthesizeAnswer]

/-- Witness for C8: a query against an empty vector database (hence an
empty search result) yields the canned answer without invoking the LLM. -/
theorem query_no_sources_canned_answer_witness :
    query (fun _ _ => 0) [] [] (fun _ => []) ⟨false, fun _ _ _ => .error []⟩ true
        (fun _ => .ok "ANSWER".data) "tA".data "what is up".data 10 [] true true =
      ({ answer := noInfoAnswer, sources := [], entities := [], confidence := 0,
         reasoning := none }, false) := by
  exact query_no_sources_canned_answer (fun _ _ => 0) [] [] (fun _ => [])
    ⟨false, fun _ _ _ => .error []⟩ true (fun _ => .ok "ANSWER".data)
    "tA".data "what is up".data 10 [] true (by simp [VectorStore.search])

end RetrievalEngine

/-! ## Claim C1: tenant isolation of search and entity lookup -/

/-- A storage write, tagged with the tenant that issued it. -/
inductive StoreOp where
  | vup (tenantId : Str) (pairs : List (DocumentChunk × Vec))
  | gcreate (tenantId : Str) (e : Entity)
  | glink (tenantId : Str) (entityId docId : Str) (mt : Option Str) (pos : Option Nat)
deriving Repr

/-- Apply one write to the two stores. -/
def applyOp : VectorDB × GraphDB → StoreOp → VectorDB × GraphDB
  | (vdb, gdb), .vup t pairs => ((VectorStore.upsert vdb t pairs).1, gdb)
  | (vdb, gdb), .gcreate t e => (vdb, (GraphStore.createEntity gdb t e).1)
  | (vdb, gdb), .glink t eid did mt pos =>
    (vdb, GraphStore.linkEntityToDocument gdb t eid did mt pos)

/-- Apply a trace of writes to the two stores. -/
def applyOps (σ : VectorDB × GraphDB) (ops : List StoreOp) : VectorDB × GraphDB :=
  ops.foldl applyOp σ

theorem upsert_fst_mem (db : VectorDB) (t : Str) (pairs : List (DocumentChunk × Vec))
    (entry : Str × VPoint) (h : entry ∈ (VectorStore.upsert db t pairs).1) :
    entry ∈ db ∨ ∃ pr ∈ pairs, entry = (VectorStore.collectionName t, VectorStore.pointOf pr) := by
  cases pairs with
  | nil => exact Or.inl h
  | cons p ps =>
    rw [VectorStore.upsert] at h
    simp only at h
    rcases List.mem_append.mp h with h1 | h1
    · exact Or.inl h1
    · right
      rw [List.map_map] at h1
      obtain ⟨pr, hpr, hentry⟩ := List.mem_map.mp h1
      exact ⟨pr, hpr, hentry.symm⟩

theorem applyOps_vector_mem (ops : List StoreOp) :
    ∀ (σ : VectorDB × GraphDB) (entry : Str × VPoint), entry ∈ (applyOps σ ops).1 →
    entry ∈ σ.1 ∨ ∃ t pairs, StoreOp.vup t pairs ∈ ops ∧
      ∃ pr ∈ pairs, entry = (VectorStore.collectionName t, VectorStore.pointOf pr) := by
  induction ops with
  | nil => intro σ entry h; exact Or.inl h
  | cons op ops ih =>
    intro σ entry h
    rw [applyOps, List.foldl_cons] at h
    rcases ih (applyOp σ op) entry h with h1 | ⟨t, pairs, hmem, pr, hpr, hentry⟩
    · cases op with
      | vup t pairs =>
        rcases upsert_fst_mem σ.1 t pairs entry (by
            cases σ with
            | mk vdb gdb => exact h1) with h2 | ⟨pr, hpr, hentry⟩
        · exact Or.inl h2
        · exact Or.inr ⟨t, pairs, List.mem_cons_self _ _, pr, hpr, hentry⟩
      | gcreate t e =>
        cases σ with
        | mk vdb gdb => exact Or.inl h1
      | glink t eid did mt pos =>
        cases σ with
        | mk vdb gdb => exact Or.inl h1
    · exact Or.inr ⟨t, pairs, List.mem_cons_of_mem _ hmem, pr, hpr, hentry⟩

/-- The identity-bearing core of a graph node survives merges (only
`mention_count` is ever mutated). -/
def GNode.sameCore (n m : GNode) : Prop :=
  n.id = m.id ∧ n.name = m.name ∧ n.type = m.type

theorem createEntityOn_entities_mem (g : TenantGraph) (e : Entity) (n : GNode)
    (h : n ∈ (GraphStore.createEntityOn g e).1.entities) :
    (∃ m ∈ g.entities, n.sameCore m) ∨ (n.id = e.id ∧ n.name = e.name ∧ n.type = e.type) := by
  rw [GraphStore.createEntityOn] at h
  by_cases hc : (g.entities.any (fun m => m.name == e.name && m.type == e.type)) = true
  · rw [if_pos hc] at h
    simp only at h
    obtain ⟨m, hm, hnm⟩ := List.mem_map.mp h
    left
    refine ⟨m, hm, ?_⟩
    by_cases hk : (m.name == e.name && m.type == e.type) = true
    · rw [if_pos hk] at hnm
      rw [← hnm]
      exact ⟨rfl, rfl, rfl⟩
    · rw [if_neg hk] at hnm
      rw [← hnm]
      exact ⟨rfl, rfl, rfl⟩
  · rw [if_neg hc] at h
    simp only at h
    rcases List.mem_append.mp h with h1 | h1
    · exact Or.inl ⟨n, h1, rfl, rfl, rfl⟩
    · right
      rw [List.mem_singleton.mp h1]
      exact ⟨rfl, rfl, rfl⟩

theorem applyOp_graph_entities (σ : VectorDB × GraphDB) (op : StoreOp) (A : Str) (n : GNode)
    (h : n ∈ (GraphStore.getGraph (applyOp σ op).2 A).entities) :
    (∃ m ∈ (GraphStore.getGraph σ.2 A).entities, n.sameCore m) ∨
    (∃ e, op = .gcreate A e ∧ n.id = e.id ∧ n.name = e.name ∧ n.type = e.type) := by
  cases σ with
  | mk vdb gdb =>
    cases op with
    | vup t pairs => exact Or.inl ⟨n, h, rfl, rfl, rfl⟩
    | gcreate t e =>
      simp only [applyOp] at h
      by_cases ht : t = A
      · subst ht
        rw [GraphStore.createEntity] at h
        simp only at h
        rw [GraphStore.getGraph_putGraph_same] at h
        rcases createEntityOn_entities_mem _ e n h with h1 | h1
        · exact Or.inl h1
        · exact Or.inr ⟨e, rfl, h1⟩
      · rw [GraphStore.createEntity] at h
        simp only at h
        rw [GraphStore.getGraph_putGraph_other _ _ _ _ ht] at h
        exact Or.inl ⟨n, h, rfl, rfl, rfl⟩
    | glink t eid did mt pos =>
      simp only [applyOp] at h
      by_cases ht : t = A
      · subst ht
        rw [GraphStore.linkEntityToDocument, GraphStore.getGraph_putGraph_same] at h
        rw [GraphStore.linkEntityToDocumentOn] at h
        simp only at h
        exact Or.inl ⟨n, h, rfl, rfl, rfl⟩
      · rw [GraphStore.linkEntityToDocument,
          GraphStore.getGraph_putGraph_other _ _ _ _ ht] at h
        exact Or.inl ⟨n, h, rfl, rfl, rfl⟩

theorem applyOps_graph_entities (ops : List StoreOp) :
    ∀ (σ : VectorDB × GraphDB) (A : Str) (n : GNode),
    n ∈ (GraphStore.getGraph (applyOps σ ops).2 A).entities →
    (∃ m ∈ (GraphStore.getGraph σ.2 A).entities, n.sameCore m) ∨
    (∃ e, StoreOp.gcreate A e ∈ ops ∧ n.id = e.id ∧ n.name = e.name ∧ n.type = e.type) := by
  induction ops with
  | nil => intro σ A n h; exact Or.inl ⟨n, h, rfl, rfl, rfl⟩
  | cons op ops ih =>
    intro σ A n h
    rw [applyOps, List.foldl_cons] at h
    rcases ih (applyOp σ op) A n h with ⟨m, hm, hcore⟩ | ⟨e, hmem, he⟩
    · rcases applyOp_graph_entities σ op A m hm with ⟨m2, hm2, hcore2⟩ | ⟨e, hop, he⟩
      · exact Or.inl ⟨m2, hm2, hcore.1.trans hcore2.1, hcore.2.1.trans hcore2.2.1,
          hcore.2.2.trans hcore2.2.2⟩
      · exact Or.inr ⟨e, by rw [hop]; exact List.mem_cons_self _ _,
          hcore.1.trans he.1, hcore.2.1.trans he.2.1, hcore.2.2.trans he.2.2⟩
    · exact Or.inr ⟨e, List.mem_cons_of_mem _ hmem, he⟩

theorem search_result_mem (scoreFn : Vec → Vec → Int) (db : VectorDB) (A : Str) (qv : Vec)
    (limit : Nat) (th : Option Int) (filters : List (Str × FilterVal)) (r : SearchResult)
    (h : r ∈ VectorStore.search scoreFn db A qv limit th filters) :
    ∃ p : VPoint, (VectorStore.collectionName A, p) ∈ db ∧
      r.id = p.id ∧ r.content = p.content ∧ r.documentId = p.documentId := by
  simp only [VectorStore.search] at h
  obtain ⟨p, hp, hrp⟩ := List.mem_map.mp h
  have hp2 := List.mem_of_mem_take hp
  have hp3 := (List.mergeSort_perm _ _).mem_iff.mp hp2
  have hp4 : p ∈ (db.filter (fun e => e.1 == VectorStore.collectionName A)).map
      (fun e => e.2) := by
    rcases th with _ | t
    · exact List.mem_of_mem_filter hp3
    · exact List.mem_of_mem_filter (List.mem_of_mem_filter hp3)
  obtain ⟨entry, hentry, hep⟩ := List.mem_map.mp hp4
  have he1 : entry.1 = VectorStore.collectionName A := by
    have := List.of_mem_filter hentry
    simpa using this
  refine ⟨p, ?_, ?_, ?_, ?_⟩
  · have : entry = (VectorStore.collectionName A, p) := by
      cases entry with
      | mk a b =>
        simp only at he1 hep
        rw [he1, hep]
    rw [← this]
    exact List.mem_of_mem_filter hentry
  · rw [← hrp]
  · rw [← hrp]
  · rw [← hrp]

theorem findEntities_row_mem (db : GraphDB) (A : Str) (pat : Str) (ty : Option Str)
    (limit : Nat) (row : EntityRow)
    (h : row ∈ GraphStore.findEntitiesByName db A pat ty limit) :
    ∃ n ∈ (GraphStore.getGraph db A).entities,
      row.id = n.id ∧ row.name = n.name ∧ row.type = n.type := by
  simp only [GraphStore.findEntitiesByName] at h
  obtain ⟨n, hn, hrn⟩ := List.mem_map.mp h
  have hn2 := List.mem_of_mem_take hn
  have hn3 : n ∈ (GraphStore.getGraph db A).entities := by
    rcases ty with _ | t
    · exact List.mem_of_mem_filter hn2
    · exact List.mem_of_mem_filter hn2
  exact ⟨n, hn3, by rw [← hrn], by rw [← hrn], by rw [← hrn]⟩

/-- Claim C1 (confirmed).  Distinct tenant ids map to distinct collection
and graph names (`evergreen_{tenant}` is injective), a `search` for
tenant A reads only A's collection and a `find_entities_by_name` for A
reads only A's graph: over any trace of writes by any tenants against
initially empty stores, every search result returned for A stems from a
vector upsert issued by A itself, and every entity row returned for A
stems from a `create_entity` issued by A itself — never from data
written under a different tenant B. -/
theorem tenant_isolation (A B : Str) (hAB : A ≠ B) (ops : List StoreOp)
    (scoreFn : Vec → Vec → Int) (qv : Vec) (limit : Nat) (th : Option Int)
    (filters : List (Str × FilterVal)) (pat : Str) (ty : Option Str) (glim : Nat) :
    VectorStore.collectionName A ≠ VectorStore.collectionName B ∧
    GraphStore.graphName A ≠ GraphStore.graphName B ∧
    (∀ r ∈ VectorStore.search scoreFn (applyOps ([], []) ops).1 A qv limit th filters,
      ∃ pairs, StoreOp.vup A pairs ∈ ops ∧ ∃ pr ∈ pairs,
        r.id = (VectorStore.pointOf pr).id ∧ r.content = pr.1.content ∧
        r.documentId = pr.1.documentId) ∧
    (∀ row ∈ GraphStore.findEntitiesByName (applyOps ([], []) ops).2 A pat ty glim,
      ∃ e, StoreOp.gcreate A e ∈ ops ∧
        row.id = e.id ∧ row.name = e.name ∧ row.type = e.type) := by
  refine ⟨?_, ?_, ?_, ?_⟩
  · intro hc
    exact hAB (List.append_cancel_left hc)
  · intro hc
    exact hAB (List.append_cancel_left hc)
  · intro r hr
    obtain ⟨p, hp, hid, hcont, hdoc⟩ :=
      search_result_mem scoreFn (applyOps ([], []) ops).1 A qv limit th filters r hr
    rcases applyOps_vector_mem ops ([], []) (VectorStore.collectionName A, p) hp with
      h0 | ⟨t, pairs, hmem, pr, hpr, hentry⟩
    · simp at h0
    · have ht : t = A := by
        have h1 : VectorStore.collectionName A = VectorStore.collectionName t := by
          have := congrArg Prod.fst hentry
          simpa using this
        exact (List.append_cancel_left h1.symm)
      subst ht
      have hpp : p = VectorStore.pointOf pr := by
        have := congrArg Prod.snd hentry
        simpa using this
      refine ⟨pairs, hmem, pr, hpr, ?_, ?_, ?_⟩
      · rw [hid, hpp]
      · rw [hcont, hpp]
        rfl
      · rw [hdoc, hpp]
        rfl
  · intro row hrow
    obtain ⟨n, hn, hid, hname, hty⟩ :=
      findEntities_row_mem (applyOps ([], []) ops).2 A pat ty glim row hrow
    rcases applyOps_graph_entities ops ([], []) A n hn with ⟨m, hm, _⟩ | ⟨e, hmem, he⟩
    · simp [GraphStore.getGraph, TenantGraph.empty] at hm
    · exact ⟨e, hmem, hid.trans he.1, hname.trans he.2.1, hty.trans he.2.2⟩

/-! ## String lemmas for the chunker claims

Facts about `pyStrip`, `splitChar`, `joinNl` and `splitNN` that
characterise the output of `_normalize_whitespace`: the whole text and
each of its lines are stripped, so a whitespace-only paragraph is at
most one newline long. -/

/-- A string with no leading and no trailing whitespace. -/
def strippedStr (l : Str) : Prop :=
  l.dropWhile isWs = l ∧ l.reverse.dropWhile isWs = l.reverse

theorem dropWhile_dropWhile (p : Char → Bool) (l : Str) :
    (l.dropWhile p).dropWhile p = l.dropWhile p := by
  induction l with
  | nil => rfl
  | cons c cs ih =>
    rw [List.dropWhile_cons]
    by_cases h : p c
    · rw [if_pos h]; exact ih
    · rw [if_neg h, List.dropWhile_cons, if_neg h]

theorem dropWhile_append_singleton (p : Char → Bool) (c : Char) (hc : ¬ p c) (xs : Str) :
    (xs ++ [c]).dropWhile p = xs.dropWhile p ++ [c] := by
  induction xs with
  | nil => simp [List.dropWhile_cons, hc]
  | cons x xs ih =>
    rw [List.cons_append, List.dropWhile_cons, List.dropWhile_cons]
    by_cases h : p x
    · rw [if_pos h, if_pos h, ih]
    · rw [if_neg h, if_neg h, List.cons_append]

theorem pyStrip_stripped (s : Str) : strippedStr (pyStrip s) := by
  constructor
  · rw [pyStrip]
    cases hu : (s.dropWhile isWs) with
    | nil => simp
    | cons c cs =>
      have hc : ¬ isWs c = true := by
        have := dropWhile_dropWhile isWs s
        rw [hu, List.dropWhile_cons] at this
        by_cases h : isWs c
        · rw [if_pos h] at this
          have hlen := congrArg List.length this
          have hd := dropWhile_length_le isWs cs
          simp only [List.length_cons] at hlen
          omega
        · exact h
      rw [List.reverse_cons, dropWhile_append_singleton isWs c hc, List.reverse_append,
        List.reverse_singleton, List.singleton_append, List.dropWhile_cons, if_neg hc]
  · rw [pyStrip, List.reverse_reverse]
    exact dropWhile_dropWhile isWs _

theorem pyStrip_eq_self (l : Str) (h : strippedStr l) : pyStrip l = l := by
  rw [pyStrip, h.1, h.2, List.reverse_reverse]

theorem pyStrip_idem (s : Str) : pyStrip (pyStrip s) = pyStrip s :=
  pyStrip_eq_self _ (pyStrip_stripped s)

theorem strippedStr_nil : strippedStr [] := ⟨rfl, rfl⟩

theorem strippedStr_head (l : Str) (h : strippedStr l) (c : Char) (cs : Str)
    (hl : l = c :: cs) : isWs c = false := by
  subst hl
  have := h.1
  rw [List.dropWhile_cons] at this
  by_cases hc : isWs c
  · rw [if_pos hc] at this
    have hlen := congrArg List.length this
    have hd := dropWhile_length_le isWs cs
    simp only [List.length_cons] at hlen
    omega
  · simpa using hc

theorem strippedStr_reverse (l : Str) (h : strippedStr l) : strippedStr l.reverse :=
  ⟨h.2, by rw [List.reverse_reverse]; exact h.1⟩

theorem dropWhile_eq_nil_of_all (p : Char → Bool) (l : Str) (h : ∀ c ∈ l, p c) :
    l.dropWhile p = [] := by
  induction l with
  | nil => rfl
  | cons c cs ih =>
    rw [List.dropWhile_cons, if_pos (h c (List.mem_cons_self _ _))]
    exact ih (fun x hx => h x (List.mem_cons_of_mem _ hx))

theorem stripped_all_ws_nil (l : Str) (h : strippedStr l) (hws : ∀ c ∈ l, isWs c) :
    l = [] := by
  have := dropWhile_eq_nil_of_all isWs l hws
  rw [h.1] at this
  exact this

theorem mem_of_mem_pyStrip (c : Char) (l : Str) (h : c ∈ pyStrip l) : c ∈ l := by
  rw [pyStrip] at h
  rw [List.mem_reverse] at h
  have h2 := (List.dropWhile_sublist isWs).mem h
  rw [List.mem_reverse] at h2
  exact (List.dropWhile_sublist isWs).mem h2

/-- Two consecutive newlines occur somewhere in the string. -/
def hasNN : Str → Bool
  | [] => false
  | c :: cs => (decide (c = '\n') && cs.head? == some '\n') || hasNN cs

theorem splitChar_ne_nil (sep : Char) (s : Str) : splitChar sep s ≠ [] := by
  induction s with
  | nil => simp [splitChar]
  | cons c cs ih =>
    rw [splitChar]
    by_cases h : c = sep
    · rw [if_pos h]; simp
    · rw [if_neg h]
      cases hs : splitChar sep cs with
      | nil => exact absurd hs ih
      | cons p ps => simp

theorem splitChar_not_mem (sep : Char) (s : Str) (l : Str) (hl : l ∈ splitChar sep s) :
    sep ∉ l := by
  induction s generalizing l with
  | nil =>
    rw [splitChar] at hl
    rw [List.mem_singleton.mp hl]
    simp
  | cons c cs ih =>
    rw [splitChar] at hl
    by_cases h : c = sep
    · rw [if_pos h] at hl
      rcases List.mem_cons.mp hl with h1 | h1
      · rw [h1]; simp
      · exact ih l h1
    · rw [if_neg h] at hl
      cases hs : splitChar sep cs with
      | nil => exact absurd hs (splitChar_ne_nil sep cs)
      | cons p ps =>
        rw [hs] at hl
        rcases List.mem_cons.mp hl with h1 | h1
        · rw [h1]
          intro hmem
          rcases List.mem_cons.mp hmem with h2 | h2
          · exact h h2.symm
          · exact ih p (by rw [hs]; exact List.mem_cons_self _ _) h2
        · exact ih l (by rw [hs]; exact List.mem_cons_of_mem _ h1)

theorem joinNl_splitChar (s : Str) : joinNl (splitChar '\n' s) = s := by
  induction s with
  | nil => rfl
  | cons c cs ih =>
    rw [splitChar]
    by_cases h : c = '\n'
    · subst h
      rw [if_pos rfl]
      cases hs : splitChar '\n' cs with
      | nil => exact absurd hs (splitChar_ne_nil '\n' cs)
      | cons p ps =>
        rw [hs] at ih
        exact congrArg (List.cons '\n') ih
    · rw [if_neg h]
      cases hs : splitChar '\n' cs with
      | nil => exact absurd hs (splitChar_ne_nil '\n' cs)
      | cons p ps =>
        rw [hs] at ih
        cases ps with
        | nil => exact congrArg (List.cons c) ih
        | cons q qs => exact congrArg (List.cons c) ih

theorem splitChar_append (sep : Char) (a b : Str) :
    splitChar sep (a ++ sep :: b) = splitChar sep a ++ splitChar sep b := by
  induction a with
  | nil => simp [splitChar]
  | cons c cs ih =>
    rw [List.cons_append, splitChar, splitChar]
    by_cases h : c = sep
    · rw [if_pos h, if_pos h, ih, List.cons_append]
    · rw [if_neg h, if_neg h, ih]
      cases hs : splitChar sep cs with
      | nil => exact absurd hs (splitChar_ne_nil sep cs)
      | cons p ps => rfl

theorem splitChar_of_not_mem (sep : Char) (l : Str) (h : sep ∉ l) :
    splitChar sep l = [l] := by
  induction l with
  | nil => rfl
  | cons c cs ih =>
    rw [splitChar, if_neg (fun hc => h (by rw [hc]; exact List.mem_cons_self _ _)),
      ih (fun hc => h (List.mem_cons_of_mem _ hc))]

theorem splitChar_joinNl (ls : List Str) (hne : ls ≠ [])
    (hnl : ∀ l ∈ ls, '\n' ∉ l) : splitChar '\n' (joinNl ls) = ls := by
  induction ls with
  | nil => exact absurd rfl hne
  | cons l rest ih =>
    cases rest with
    | nil => exact splitChar_of_not_mem '\n' l (hnl l (List.mem_cons_self _ _))
    | cons l2 rest2 =>
      rw [joinNl, splitChar_append, splitChar_of_not_mem '\n' l (hnl l (List.mem_cons_self _ _))]
      rw [ih (by simp) (fun x hx => hnl x (List.mem_cons_of_mem _ hx))]
      rfl

theorem mem_joinNl (ls : List Str) (l : Str) (hl : l ∈ ls) (c : Char) (hc : c ∈ l) :
    c ∈ joinNl ls := by
  induction ls with
  | nil => exact absurd hl (List.not_mem_nil l)
  | cons p rest ih =>
    cases rest with
    | nil =>
      rw [List.mem_singleton.mp hl] at hc
      exact hc
    | cons q rest2 =>
      rw [joinNl, List.mem_append]
      rcases List.mem_cons.mp hl with h1 | h1
      · left; rw [← h1]; exact hc
      · right; exact List.mem_cons_of_mem _ (ih h1)

theorem mem_of_mem_splitChar (sep : Char) (s l : Str) (hl : l ∈ splitChar sep s)
    (c : Char) (hc : c ∈ l) : c ∈ s := by
  by_cases hsep : sep = '\n'
  · subst hsep
    rw [← joinNl_splitChar s]
    exact mem_joinNl _ l hl c hc
  · induction s generalizing l with
    | nil =>
      rw [splitChar] at hl
      rw [List.mem_singleton.mp hl] at hc
      exact hc
    | cons d ds ih =>
      rw [splitChar] at hl
      by_cases hd : d = sep
      · rw [if_pos hd] at hl
        rcases List.mem_cons.mp hl with h1 | h1
        · rw [h1] at hc; exact absurd hc (List.not_mem_nil c)
        · exact List.mem_cons_of_mem _ (ih l h1 hc)
      · rw [if_neg hd] at hl
        cases hs : splitChar sep ds with
        | nil => exact absurd hs (splitChar_ne_nil sep ds)
        | cons p ps =>
          rw [hs] at hl
          rcases List.mem_cons.mp hl with h1 | h1
          · rw [h1] at hc
            rcases List.mem_cons.mp hc with h2 | h2
            · rw [h2]; exact List.mem_cons_self _ _
            · exact List.mem_cons_of_mem _
                (ih p (by rw [hs]; exact List.mem_cons_self _ _) h2)
          · exact List.mem_cons_of_mem _
              (ih l (by rw [hs]; exact List.mem_cons_of_mem _ h1) hc)

/-- Python `"\n\n".join(paragraphs)`, the inverse of `splitNN`. -/
def joinNN : List Str → Str
  | [] => []
  | [p] => p
  | p :: p2 :: ps => p ++ '\n' :: '\n' :: joinNN (p2 :: ps)

theorem splitNN_ne_nil (s : Str) : splitNN s ≠ [] := by
  induction s using splitNN.induct with
  | case1 => simp [splitNN]
  | case2 c cs hcond ih =>
    rw [splitNN, if_pos hcond]
    simp
  | case3 c cs hcond hnil ih => exact absurd hnil ih
  | case4 c cs hcond p ps hps ih =>
    rw [splitNN, if_neg hcond, hps]
    simp

theorem joinNN_splitNN (s : Str) : joinNN (splitNN s) = s := by
  induction s using splitNN.induct with
  | case1 => simp [splitNN, joinNN]
  | case2 c cs hcond ih =>
    rw [splitNN, if_pos hcond]
    obtain ⟨hc, hh⟩ := hcond
    cases cs with
    | nil => simp at hh
    | cons d ds =>
      have hd : d = '\n' := by simpa using hh
      subst hc
      subst hd
      rw [List.tail_cons] at ih ⊢
      cases hs : splitNN ds with
      | nil => exact absurd hs (splitNN_ne_nil ds)
      | cons p ps =>
        rw [hs] at ih
        exact congrArg (fun x => '\n' :: '\n' :: x) ih
  | case3 c cs hcond hnil ih => exact absurd hnil (splitNN_ne_nil cs)
  | case4 c cs hcond p ps hps ih =>
    rw [splitNN, if_neg hcond, hps]
    rw [hps] at ih
    cases ps with
    | nil => exact congrArg (List.cons c) ih
    | cons q qs => exact congrArg (List.cons c) ih

theorem splitNN_head_eq (cs : Str) (p : Str) (ps : List Str) (hps : splitNN cs = p :: ps)
    (hne : p ≠ []) : p.head? = cs.head? := by
  cases cs with
  | nil =>
    rw [splitNN] at hps
    have : p = [] := by
      have := hps
      simp at this
      exact this.1.symm ▸ rfl
    exact absurd this hne
  | cons d ds =>
    rw [splitNN] at hps
    by_cases hcond : d = '\n' ∧ ds.head? = some '\n'
    · rw [if_pos hcond] at hps
      have : p = [] := (List.cons.injEq _ _ _ _ ▸ hps).1.symm ▸ rfl
      exact absurd ((List.cons.injEq _ _ _ _).mp hps).1.symm hne
    · rw [if_neg hcond] at hps
      cases hs : splitNN ds with
      | nil =>
        rw [hs] at hps
        have hp : p = [d] := ((List.cons.injEq _ _ _ _).mp hps).1.symm
        rw [hp]
        rfl
      | cons q qs =>
        rw [hs] at hps
        have hp : p = d :: q := ((List.cons.injEq _ _ _ _).mp hps).1.symm
        rw [hp]
        rfl

theorem splitNN_no_hasNN (s : Str) (p : Str) (hp : p ∈ splitNN s) : hasNN p = false := by
  induction s using splitNN.induct generalizing p with
  | case1 =>
    rw [splitNN] at hp
    rw [List.mem_singleton.mp hp]
    rfl
  | case2 c cs hcond ih =>
    rw [splitNN, if_pos hcond] at hp
    rcases List.mem_cons.mp hp with h1 | h1
    · rw [h1]; rfl
    · exact ih p h1
  | case3 c cs hcond hnil ih => exact absurd hnil (splitNN_ne_nil cs)
  | case4 c cs hcond q qs hps ih =>
    rw [splitNN, if_neg hcond, hps] at hp
    rcases List.mem_cons.mp hp with h1 | h1
    · rw [h1, hasNN]
      have h2 : hasNN q = false := ih q (by rw [hps]; exact List.mem_cons_self _ _)
      rw [h2]
      have h3 : (decide (c = '\n') && q.head? == some '\n') = false := by
        by_cases hq : q = []
        · rw [hq]; simp
        · rw [splitNN_head_eq cs q qs hps hq]
          rw [Bool.and_eq_false_iff]
          by_cases hc : c = '\n'
          · right
            by_cases hh : cs.head? = some '\n'
            · exact absurd ⟨hc, hh⟩ hcond
            · simpa using hh
          · left; simpa using hc
      rw [h3]
      rfl
    · exact ih p (by rw [hps]; exact List.mem_cons_of_mem _ h1)

theorem lines_of_joinNN (ps : List Str) (p : Str) (hp : p ∈ ps) (l : Str)
    (hl : l ∈ splitChar '\n' p) : l ∈ splitChar '\n' (joinNN ps) := by
  induction ps generalizing p with
  | nil => exact absurd hp (List.not_mem_nil p)
  | cons p0 rest ih =>
    cases rest with
    | nil =>
      rw [List.mem_singleton.mp hp] at hl
      exact hl
    | cons q qs =>
      rw [joinNN, splitChar_append]
      rcases List.mem_cons.mp hp with h1 | h1
      · rw [h1] at hl
        exact List.mem_append_left _ hl
      · apply List.mem_append_right
        rw [splitChar, if_pos rfl]
        exact List.mem_cons_of_mem _ (ih p h1 hl)

theorem para_line_in_text (s p : Str) (hp : p ∈ splitNN s) (l : Str)
    (hl : l ∈ splitChar '\n' p) : l ∈ splitChar '\n' s := by
  rw [← joinNN_splitNN s]
  exact lines_of_joinNN (splitNN s) p hp l hl

theorem dropWhile_joinNl_stripped (ls : List Str) (hs : ∀ l ∈ ls, strippedStr l) :
    (joinNl ls).dropWhile isWs = joinNl (ls.dropWhile List.isEmpty) := by
  induction ls with
  | nil => rfl
  | cons l rest ih =>
    cases rest with
    | nil =>
      cases hl : l with
      | nil => simp [joinNl, List.dropWhile]
      | cons c cl =>
        have hc := strippedStr_head l (hs l (List.mem_cons_self _ _)) c cl hl
        show (c :: cl).dropWhile isWs = joinNl ([c :: cl].dropWhile List.isEmpty)
        rw [List.dropWhile_cons, if_neg (by simp [hc])]
        simp [List.dropWhile, joinNl]
    | cons l2 rest2 =>
      cases hl : l with
      | nil =>
        rw [joinNl, List.nil_append, List.dropWhile_cons, if_pos (by simp [isWs])]
        rw [ih (fun x hx => hs x (List.mem_cons_of_mem _ hx))]
        simp [List.dropWhile]
      | cons c cl =>
        have hc := strippedStr_head l (hs l (List.mem_cons_self _ _)) c cl hl
        rw [joinNl, List.cons_append, List.dropWhile_cons, if_neg (by simp [hc])]
        have : ((c :: cl) :: l2 :: rest2).dropWhile List.isEmpty =
            (c :: cl) :: l2 :: rest2 := by
          rw [List.dropWhile_cons, if_neg (by simp)]
        rw [this, joinNl, List.cons_append]

theorem joinNl_append_singleton (ls : List Str) (x : Str) (hne : ls ≠ []) :
    joinNl (ls ++ [x]) = joinNl ls ++ '\n' :: x := by
  induction ls with
  | nil => exact absurd rfl hne
  | cons l rest ih =>
    cases rest with
    | nil => rfl
    | cons l2 rest2 =>
      rw [List.cons_append, joinNl]
      show (l ++ '\n' :: joinNl ((l2 :: rest2) ++ [x])) = joinNl (l :: l2 :: rest2) ++ '\n' :: x
      rw [ih (by simp), joinNl, List.append_assoc]
      rfl

theorem reverse_joinNl (ls : List Str) :
    (joinNl ls).reverse = joinNl ((ls.map List.reverse).reverse) := by
  induction ls with
  | nil => rfl
  | cons l rest ih =>
    cases rest with
    | nil => simp [joinNl]
    | cons l2 rest2 =>
      rw [joinNl, List.reverse_append, List.reverse_cons, List.map_cons, List.reverse_cons,
        joinNl_append_singleton ((List.map List.reverse (l2 :: rest2)).reverse) l.reverse
          (by simp), ← ih, List.append_assoc]
      rfl

theorem linesStripped_joinNl (ls : List Str) (hstr : ∀ l ∈ ls, strippedStr l)
    (hnl : ∀ l ∈ ls, '\n' ∉ l) (l : Str)
    (hl : l ∈ splitChar '\n' (pyStrip (joinNl ls))) : strippedStr l := by
  have step : ∀ (ms : List Str), (∀ m ∈ ms, strippedStr m) → (∀ m ∈ ms, '\n' ∉ m) →
      (∀ m ∈ ms.dropWhile List.isEmpty, strippedStr m) ∧
      (∀ m ∈ ms.dropWhile List.isEmpty, '\n' ∉ m) := by
    intro ms h1 h2
    exact ⟨fun m hm => h1 m ((List.dropWhile_sublist _).mem hm),
      fun m hm => h2 m ((List.dropWhile_sublist _).mem hm)⟩
  have rev : ∀ (ms : List Str), (∀ m ∈ ms, strippedStr m) → (∀ m ∈ ms, '\n' ∉ m) →
      (∀ m ∈ (ms.map List.reverse).reverse, strippedStr m) ∧
      (∀ m ∈ (ms.map List.reverse).reverse, '\n' ∉ m) := by
    intro ms h1 h2
    constructor
    · intro m hm
      rw [List.mem_reverse] at hm
      obtain ⟨m0, hm0, hmm⟩ := List.mem_map.mp hm
      rw [← hmm]
      exact strippedStr_reverse m0 (h1 m0 hm0)
    · intro m hm
      rw [List.mem_reverse] at hm
      obtain ⟨m0, hm0, hmm⟩ := List.mem_map.mp hm
      rw [← hmm]
      intro hmem
      exact h2 m0 hm0 (List.mem_reverse.mp hmem)
  rw [pyStrip] at hl
  rw [dropWhile_joinNl_stripped ls hstr] at hl
  obtain ⟨h1, h2⟩ := step ls hstr hnl
  rw [reverse_joinNl] at hl
  obtain ⟨h3, h4⟩ := rev _ h1 h2
  rw [dropWhile_joinNl_stripped _ h3] at hl
  obtain ⟨h5, h6⟩ := step _ h3 h4
  rw [reverse_joinNl] at hl
  obtain ⟨h7, h8⟩ := rev _ h5 h6
  cases hfin : ((((ls.dropWhile List.isEmpty).map List.reverse).reverse.dropWhile
      List.isEmpty).map List.reverse).reverse with
  | nil =>
    rw [hfin] at hl
    rw [show joinNl [] = [] from rfl, splitChar] at hl
    rw [List.mem_singleton.mp hl]
    exact strippedStr_nil
  | cons m ms =>
    rw [hfin] at hl
    rw [splitChar_joinNl (m :: ms) (by simp) (by rw [← hfin]; exact h8)] at hl
    apply h7
    rw [hfin]
    exact hl

theorem linesStripped_normalize (s : Str) (l : Str)
    (hl : l ∈ splitChar '\n' (normalizeWhitespace s)) : strippedStr l := by
  rw [normalizeWhitespace] at hl
  apply linesStripped_joinNl _ _ _ l hl
  · intro m hm
    obtain ⟨m0, hm0, hmm⟩ := List.mem_map.mp hm
    rw [← hmm]
    exact pyStrip_stripped m0
  · intro m hm
    obtain ⟨m0, hm0, hmm⟩ := List.mem_map.mp hm
    rw [← hmm]
    intro hmem
    exact splitChar_not_mem '\n' _ m0 hm0 (mem_of_mem_pyStrip '\n' m0 hmem)

theorem pyStrip_normalize (s : Str) :
    pyStrip (normalizeWhitespace s) = normalizeWhitespace s := by
  rw [normalizeWhitespace]
  exact pyStrip_idem _

theorem joinNl_replicate_nil (m : Nat) :
    joinNl (List.replicate (m + 2) ([] : Str)) = List.replicate (m + 1) '\n' := by
  induction m with
  | zero => rfl
  | succ n ih =>
    have e1 : List.replicate (n + 1 + 2) ([] : Str) = [] :: [] :: List.replicate (n + 1) [] := rfl
    rw [e1, joinNl, List.nil_append]
    have e2 : ([] :: List.replicate (n + 1) ([] : Str)) = List.replicate (n + 2) [] := rfl
    rw [e2, ih, ← List.replicate_succ]

theorem hasNN_replicate_nl (j : Nat) : hasNN (List.replicate (j + 2) '\n') = true := by
  rw [List.replicate_succ, hasNN, List.replicate_succ]
  simp

/-- Key property of `_normalize_whitespace` output: a whitespace-only
paragraph is at most a single newline (its lines are stripped, hence
empty, and a paragraph never contains two consecutive newlines). -/
theorem normalize_ws_para_short (s : Str) (p : Str)
    (hp : p ∈ splitNN (normalizeWhitespace s)) (hws : ∀ c ∈ p, isWs c) :
    p.length ≤ 1 := by
  have hlines : ∀ l ∈ splitChar '\n' p, l = [] := by
    intro l hl
    apply stripped_all_ws_nil
    · exact linesStripped_normalize s l (para_line_in_text _ p hp l hl)
    · intro c hc
      exact hws c (mem_of_mem_splitChar '\n' p l hl c hc)
  have hrep : splitChar '\n' p = List.replicate (splitChar '\n' p).length [] :=
    List.eq_replicate_of_mem hlines
  have hk : 1 ≤ (splitChar '\n' p).length := by
    cases hq : splitChar '\n' p with
    | nil => exact absurd hq (splitChar_ne_nil '\n' p)
    | cons a as => simp
  have hjp : p = joinNl (List.replicate (splitChar '\n' p).length []) := by
    rw [← hrep, joinNl_splitChar]
  by_contra hlen
  push_neg at hlen
  have hk3 : 3 ≤ (splitChar '\n' p).length := by
    by_contra hlt
    push_neg at hlt
    have h12 : (splitChar '\n' p).length = 1 ∨ (splitChar '\n' p).length = 2 := by omega
    rcases h12 with h1 | h1
    · rw [h1] at hjp
      rw [show joinNl (List.replicate 1 ([] : Str)) = [] from rfl] at hjp
      rw [hjp] at hlen
      simp at hlen
    · rw [h1] at hjp
      rw [show joinNl (List.replicate 2 ([] : Str)) = ['\n'] from rfl] at hjp
      rw [hjp] at hlen
      simp at hlen
  obtain ⟨m, hm⟩ : ∃ m, (splitChar '\n' p).length = m + 2 :=
    ⟨(splitChar '\n' p).length - 2, by omega⟩
  have hNN : hasNN p = true := by
    rw [hjp, hm, joinNl_replicate_nil]
    have hm1 : ∃ j, m + 1 = j + 2 := ⟨m - 1, by omega⟩
    obtain ⟨j, hj⟩ := hm1
    rw [hj]
    exact hasNN_replicate_nl j
  rw [splitNN_no_hasNN (normalizeWhitespace s) p hp] at hNN
  exact absurd hNN (by simp)

theorem pyWordsGo_ne_nil :
    ∀ (fuel : Nat) (s : Str), s.length ≤ fuel → (∃ c ∈ s, isWs c = false) →
    pyWordsGo fuel s ≠ [] := by
  intro fuel
  induction fuel with
  | zero =>
    intro s hlen hex
    cases s with
    | nil =>
      obtain ⟨c, hc, _⟩ := hex
      exact absurd hc (List.not_mem_nil c)
    | cons c cs => simp at hlen
  | succ n ih =>
    intro s hlen hex
    cases s with
    | nil =>
      obtain ⟨c, hc, _⟩ := hex
      exact absurd hc (List.not_mem_nil c)
    | cons c cs =>
      rw [pyWordsGo]
      by_cases hws : isWs c = true
      · rw [if_pos hws]
        apply ih cs (by simp at hlen; omega)
        obtain ⟨d, hd, hdws⟩ := hex
        rcases List.mem_cons.mp hd with h1 | h1
        · exact absurd (h1 ▸ hdws) (by simp [hws])
        · exact ⟨d, h1, hdws⟩
      · rw [if_neg hws]
        simp

theorem pyWords_ne_nil (s : Str) (h : ∃ c ∈ s, isWs c = false) : pyWords s ≠ [] :=
  pyWordsGo_ne_nil s.length s le_rfl h

theorem splitSentGo_ex :
    ∀ (fuel : Nat) (acc s : Str), acc ≠ [] → ∃ p ∈ splitSentGo fuel acc s, p ≠ [] := by
  intro fuel
  induction fuel with
  | zero =>
    intro acc s hacc
    cases s with
    | nil => exact ⟨acc.reverse, List.mem_singleton_self _, by simpa using hacc⟩
    | cons c cs => exact ⟨acc.reverse, List.mem_singleton_self _, by simpa using hacc⟩
  | succ n ih =>
    intro acc s hacc
    cases s with
    | nil => exact ⟨acc.reverse, List.mem_singleton_self _, by simpa using hacc⟩
    | cons c cs =>
      rw [splitSentGo]
      by_cases hcond : (isWs c && prevSentEnd acc) = true
      · rw [if_pos hcond]
        exact ⟨acc.reverse, List.mem_cons_self _ _, by simpa using hacc⟩
      · rw [if_neg hcond]
        exact ih (c :: acc) cs (List.cons_ne_nil c acc)

/-- The sentence splitter's first piece contains the first character of a
text that does not start with whitespace, so some sentence is non-empty. -/
theorem splitSentences_ex (c : Char) (cs : Str) (hc : isWs c = false) :
    ∃ p ∈ splitSentences (c :: cs), p ≠ [] := by
  rw [splitSentences, List.length_cons, splitSentGo]
  rw [if_neg (by simp [hc])]
  exact splitSentGo_ex cs.length [c] cs (List.cons_ne_nil c [])

theorem joinNN_all_nil (ps : List Str) (h : ∀ p ∈ ps, p = []) :
    ∀ c ∈ joinNN ps, c = '\n' := by
  induction ps with
  | nil =>
    intro c hc
    exact absurd hc (List.not_mem_nil c)
  | cons p rest ih =>
    cases rest with
    | nil =>
      intro c hc
      simp only [joinNN] at hc
      rw [h p (List.mem_cons_self _ _)] at hc
      exact absurd hc (List.not_mem_nil c)
    | cons q qs =>
      intro c hc
      simp only [joinNN] at hc
      rw [h p (List.mem_cons_self _ _), List.nil_append] at hc
      rcases List.mem_cons.mp hc with h1 | hc2
      · exact h1
      · rcases List.mem_cons.mp hc2 with h2 | hc3
        · exact h2
        · exact ih (fun p2 hp2 => h p2 (List.mem_cons_of_mem _ hp2)) c hc3

/-- A non-empty stripped text has a non-empty paragraph: were they all
empty, the text would consist of newlines only, contradicting its
non-whitespace first character. -/
theorem splitNN_ex_ne_nil (t : Str) (hne : t ≠ []) (hstr : strippedStr t) :
    ∃ p ∈ splitNN t, p ≠ [] := by
  by_contra hall
  push_neg at hall
  have hj := joinNN_all_nil (splitNN t) hall
  rw [joinNN_splitNN] at hj
  cases ht : t with
  | nil => exact hne ht
  | cons c cs =>
    have hcws : isWs c = false := strippedStr_head t hstr c cs ht
    have hcn : c = '\n' := hj c (by rw [ht]; exact List.mem_cons_self _ _)
    rw [hcn] at hcws
    exact absurd hcws (by decide)

/-! ## Chunker loop invariants -/

namespace SemanticChunker

/-- Budget invariant of the paragraph and section loops: a chunk either
fits the token budget or is a word-window segment of an oversized unit. -/
def BudgetOk (cfg : ChunkingConfig) (c : DocumentChunk) : Prop :=
  c.tokenCount ≤ cfg.maxTokens ∨
  ∃ u, estimateTokens u > cfg.maxTokens ∧
    c.content ∈ splitLongText u cfg.maxTokens cfg.overlapTokens

theorem appendSubs_subset (doc : RawDocument) (subs : List Str) :
    ∀ (acc : List DocumentChunk) (c : DocumentChunk), c ∈ appendSubs doc acc subs →
    c ∈ acc ∨ ∃ s ∈ subs, ∃ idx, c = createChunk doc s idx (estimateTokens s) := by
  induction subs with
  | nil => intro acc c hc; exact Or.inl hc
  | cons s ss ih =>
    intro acc c hc
    rw [appendSubs] at hc
    rcases ih _ c hc with h1 | ⟨s2, hs2, idx, hidx⟩
    · rcases List.mem_append.mp h1 with h2 | h2
      · exact Or.inl h2
      · exact Or.inr ⟨s, List.mem_cons_self _ _, acc.length, List.mem_singleton.mp h2⟩
    · exact Or.inr ⟨s2, List.mem_cons_of_mem _ hs2, idx, hidx⟩

theorem appendSubs_length (doc : RawDocument) (subs : List Str) :
    ∀ (acc : List DocumentChunk), acc.length ≤ (appendSubs doc acc subs).length := by
  induction subs with
  | nil => intro acc; exact le_rfl
  | cons s ss ih =>
    intro acc
    rw [appendSubs]
    calc acc.length ≤ (acc ++ [createChunk doc s acc.length (estimateTokens s)]).length := by
          simp
      _ ≤ _ := ih _

theorem appendSubs_ne_nil (doc : RawDocument) (subs : List Str) (acc : List DocumentChunk)
    (h : acc ≠ [] ∨ subs ≠ []) : appendSubs doc acc subs ≠ [] := by
  have hlen : 1 ≤ (appendSubs doc acc subs).length := by
    rcases h with h | h
    · calc 1 ≤ acc.length := by
            cases acc with
            | nil => exact absurd rfl h
            | cons a as => simp
        _ ≤ _ := appendSubs_length doc subs acc
    · cases subs with
      | nil => exact absurd rfl h
      | cons s ss =>
        rw [appendSubs]
        calc 1 ≤ (acc ++ [createChunk doc s acc.length (estimateTokens s)]).length := by simp
          _ ≤ _ := appendSubs_length doc ss _
  intro hnil
  rw [hnil] at hlen
  simp at hlen

theorem splitLongText_ne_nil (text : Str) (maxTokens overlapTokens : Nat)
    (hw : pyWords text ≠ []) (hwpc : 1 ≤ maxTokens * 3 / 4) :
    splitLongText text maxTokens overlapTokens ≠ [] := by
  rw [splitLongText]
  cases hws : pyWords text with
  | nil => exact absurd hws hw
  | cons w ws =>
    rw [windowGo]
    rw [if_pos (by simp)]
    simp

theorem emailLoop_budget (doc : RawDocument) (cfg : ChunkingConfig) :
    ∀ (paras : List Str) (acc : List DocumentChunk) (cur : Str) (curTok : Nat),
    (∀ c ∈ acc, BudgetOk cfg c) → curTok ≤ cfg.maxTokens →
    ∀ c ∈ emailLoop doc cfg paras acc cur curTok, BudgetOk cfg c := by
  intro paras
  induction paras with
  | nil =>
    intro acc cur curTok hacc hcur c hc
    rw [emailLoop] at hc
    by_cases hne : cur ≠ []
    · rw [if_pos hne] at hc
      rcases List.mem_append.mp hc with h1 | h1
      · exact hacc c h1
      · rw [List.mem_singleton.mp h1]
        exact Or.inl hcur
    · rw [if_neg hne] at hc
      exact hacc c hc
  | cons para rest ih =>
    intro acc cur curTok hacc hcur c hc
    rw [emailLoop] at hc
    by_cases hfit : curTok + estimateTokens para ≤ cfg.maxTokens
    · rw [if_pos hfit] at hc
      exact ih _ _ _ hacc hfit c hc
    · rw [if_neg hfit] at hc
      have hacc1 : ∀ c ∈ (if cur ≠ [] then
          acc ++ [createChunk doc cur acc.length curTok] else acc), BudgetOk cfg c := by
        intro c2 hc2
        by_cases hne : cur ≠ []
        · rw [if_pos hne] at hc2
          rcases List.mem_append.mp hc2 with h1 | h1
          · exact hacc c2 h1
          · rw [List.mem_singleton.mp h1]
            exact Or.inl hcur
        · rw [if_neg hne] at hc2
          exact hacc c2 hc2
      by_cases hlong : estimateTokens para > cfg.maxTokens
      · rw [if_pos hlong] at hc
        apply ih _ _ _ _ (Nat.zero_le _) c hc
        intro c2 hc2
        rcases appendSubs_subset doc _ _ c2 hc2 with h1 | ⟨s, hs, idx, hidx⟩
        · exact hacc1 c2 h1
        · right
          exact ⟨para, hlong, by rw [hidx]; exact hs⟩
      · rw [if_neg hlong] at hc
        exact ih _ _ _ hacc1 (by omega) c hc

/-- Budget invariant of the sentence loop: a chunk fits the budget or is
one original sentence emitted whole. -/
def SentenceOk (cfg : ChunkingConfig) (S : List Str) (c : DocumentChunk) : Prop :=
  c.tokenCount ≤ cfg.maxTokens ∨
  (c.content ∈ S ∧ c.tokenCount = estimateTokens c.content)

theorem sentenceLoop_budget (doc : RawDocument) (cfg : ChunkingConfig) (S : List Str) :
    ∀ (sents : List Str) (acc : List DocumentChunk) (cur : Str) (curTok : Nat),
    (∀ s ∈ sents, s ∈ S) →
    (∀ c ∈ acc, SentenceOk cfg S c) →
    (curTok ≤ cfg.maxTokens ∨ (cur ∈ S ∧ curTok = estimateTokens cur)) →
    ∀ c ∈ sentenceLoop doc cfg sents acc cur curTok, SentenceOk cfg S c := by
  intro sents
  induction sents with
  | nil =>
    intro acc cur curTok hS hacc hcur c hc
    rw [sentenceLoop] at hc
    by_cases hne : cur ≠ []
    · rw [if_pos hne] at hc
      rcases List.mem_append.mp hc with h1 | h1
      · exact hacc c h1
      · rw [List.mem_singleton.mp h1]
        rcases hcur with h | h
        · exact Or.inl h
        · exact Or.inr h
    · rw [if_neg hne] at hc
      exact hacc c hc
  | cons s rest ih =>
    intro acc cur curTok hS hacc hcur c hc
    rw [sentenceLoop] at hc
    by_cases hfit : curTok + estimateTokens s ≤ cfg.maxTokens
    · rw [if_pos hfit] at hc
      exact ih _ _ _ (fun x hx => hS x (List.mem_cons_of_mem _ hx)) hacc (Or.inl hfit) c hc
    · rw [if_neg hfit] at hc
      have hacc1 : ∀ c2 ∈ (if cur ≠ [] then
          acc ++ [createChunk doc cur acc.length curTok] else acc), SentenceOk cfg S c2 := by
        intro c2 hc2
        by_cases hne : cur ≠ []
        · rw [if_pos hne] at hc2
          rcases List.mem_append.mp hc2 with h1 | h1
          · exact hacc c2 h1
          · rw [List.mem_singleton.mp h1]
            rcases hcur with h | h
            · exact Or.inl h
            · exact Or.inr h
        · rw [if_neg hne] at hc2
          exact hacc c2 hc2
      exact ih _ _ _ (fun x hx => hS x (List.mem_cons_of_mem _ hx)) hacc1
        (Or.inr ⟨hS s (List.mem_cons_self _ _), rfl⟩) c hc

theorem sectionLoop_budget (doc : RawDocument) (cfg : ChunkingConfig) :
    ∀ (secs : List Str) (acc : List DocumentChunk),
    (∀ c ∈ acc, BudgetOk cfg c) →
    ∀ c ∈ sectionLoop doc cfg secs acc, BudgetOk cfg c := by
  intro secs
  induction secs with
  | nil => intro acc hacc c hc; exact hacc c hc
  | cons sec rest ih =>
    intro acc hacc c hc
    rw [sectionLoop] at hc
    by_cases hfit : estimateTokens sec ≤ cfg.maxTokens
    · rw [if_pos hfit] at hc
      apply ih _ _ c hc
      intro c2 hc2
      rcases List.mem_append.mp hc2 with h1 | h1
      · exact hacc c2 h1
      · rw [List.mem_singleton.mp h1]
        exact Or.inl hfit
    · rw [if_neg hfit] at hc
      apply ih _ _ c hc
      intro c2 hc2
      rcases appendSubs_subset doc _ _ c2 hc2 with h1 | ⟨s, hs, idx, hidx⟩
      · exact hacc c2 h1
      · right
        exact ⟨sec, by omega, by rw [hidx]; exact hs⟩

theorem appendSubs_mono (doc : RawDocument) (subs : List Str) :
    ∀ (acc : List DocumentChunk) (c : DocumentChunk),
    c ∈ acc → c ∈ appendSubs doc acc subs := by
  induction subs with
  | nil => intro acc c hc; exact hc
  | cons s ss ih =>
    intro acc c hc
    rw [appendSubs]
    exact ih _ c (List.mem_append_left _ hc)

/-- Every sub-chunk handed to the append loop ends up as the content of
some chunk in its output. -/
theorem appendSubs_content (doc : RawDocument) (subs : List Str) :
    ∀ (acc : List DocumentChunk), ∀ s ∈ subs,
    ∃ ch ∈ appendSubs doc acc subs, ch.content = s := by
  induction subs with
  | nil => intro acc s hs; exact absurd hs (List.not_mem_nil s)
  | cons s0 ss ih =>
    intro acc s hs
    rw [appendSubs]
    rcases List.mem_cons.mp hs with h | h
    · refine ⟨createChunk doc s0 acc.length (estimateTokens s0),
        appendSubs_mono doc ss _ _ (List.mem_append_right _ (List.mem_singleton_self _)), ?_⟩
      rw [h]
      rfl
    · exact ih _ s h

/-- The paragraph loop never removes an accumulated chunk. -/
theorem emailLoop_mono (doc : RawDocument) (cfg : ChunkingConfig) :
    ∀ (paras : List Str) (acc : List DocumentChunk) (cur : Str) (curTok : Nat)
      (c : DocumentChunk), c ∈ acc → c ∈ emailLoop doc cfg paras acc cur curTok := by
  intro paras
  induction paras with
  | nil =>
    intro acc cur curTok c hc
    rw [emailLoop]
    by_cases hne : cur ≠ []
    · rw [if_pos hne]; exact List.mem_append_left _ hc
    · rw [if_neg hne]; exact hc
  | cons para rest ih =>
    intro acc cur curTok c hc
    rw [emailLoop]
    dsimp only
    by_cases hfit : curTok + estimateTokens para ≤ cfg.maxTokens
    · rw [if_pos hfit]
      exact ih _ _ _ c hc
    · rw [if_neg hfit]
      have hacc1 : c ∈
          (if cur ≠ [] then acc ++ [createChunk doc cur acc.length curTok] else acc) := by
        by_cases hne : cur ≠ []
        · rw [if_pos hne]; exact List.mem_append_left _ hc
        · rw [if_neg hne]; exact hc
      by_cases hlong : estimateTokens para > cfg.maxTokens
      · rw [if_pos hlong]
        exact ih _ _ _ c (appendSubs_mono doc _ _ c hacc1)
      · rw [if_neg hlong]
        exact ih _ _ _ c hacc1

/-- An over-budget paragraph is never dropped by the paragraph loop:
every word-window segment of it is the content of some emitted chunk. -/
theorem emailLoop_oversized (doc : RawDocument) (cfg : ChunkingConfig) :
    ∀ (paras : List Str) (acc : List DocumentChunk) (cur : Str) (curTok : Nat),
    ∀ p ∈ paras, cfg.maxTokens < estimateTokens p →
    ∀ s ∈ splitLongText p cfg.maxTokens cfg.overlapTokens,
    ∃ ch ∈ emailLoop doc cfg paras acc cur curTok, ch.content = s := by
  intro paras
  induction paras with
  | nil => intro _ _ _ p hp _ _ _; exact absurd hp (List.not_mem_nil p)
  | cons para rest ih =>
    intro acc cur curTok p hp hpover s hs
    rw [emailLoop]
    dsimp only
    rcases List.mem_cons.mp hp with h | h
    · subst h
      rw [if_neg (by omega : ¬(curTok + estimateTokens p ≤ cfg.maxTokens)), if_pos hpover]
      obtain ⟨ch, hch, hcont⟩ := appendSubs_content doc
        (splitLongText p cfg.maxTokens cfg.overlapTokens)
        (if cur ≠ [] then acc ++ [createChunk doc cur acc.length curTok] else acc) s hs
      exact ⟨ch, emailLoop_mono doc cfg rest _ [] 0 ch hch, hcont⟩
    · by_cases hfit : curTok + estimateTokens para ≤ cfg.maxTokens
      · rw [if_pos hfit]
        exact ih _ _ _ p h hpover s hs
      · rw [if_neg hfit]
        by_cases hlong : estimateTokens para > cfg.maxTokens
        · rw [if_pos hlong]
          exact ih _ _ _ p h hpover s hs
        · rw [if_neg hlong]
          exact ih _ _ _ p h hpover s hs

/-- The sentence loop never removes an accumulated chunk. -/
theorem sentenceLoop_mono (doc : RawDocument) (cfg : ChunkingConfig) :
    ∀ (sents : List Str) (acc : List DocumentChunk) (cur : Str) (curTok : Nat)
      (c : DocumentChunk), c ∈ acc → c ∈ sentenceLoop doc cfg sents acc cur curTok := by
  intro sents
  induction sents with
  | nil =>
    intro acc cur curTok c hc
    rw [sentenceLoop]
    by_cases hne : cur ≠ []
    · rw [if_pos hne]; exact List.mem_append_left _ hc
    · rw [if_neg hne]; exact hc
  | cons s rest ih =>
    intro acc cur curTok c hc
    rw [sentenceLoop]
    dsimp only
    by_cases hfit : curTok + estimateTokens s ≤ cfg.maxTokens
    · rw [if_pos hfit]
      exact ih _ _ _ c hc
    · rw [if_neg hfit]
      apply ih
      by_cases hne : cur ≠ []
      · rw [if_pos hne]; exact List.mem_append_left _ hc
      · rw [if_neg hne]; exact hc

/-- A current chunk whose running token count is over budget is flushed
as-is: the next iteration (and the final flush) cannot pack anything
more into it, so its exact content is emitted. -/
theorem sentenceLoop_flush (doc : RawDocument) (cfg : ChunkingConfig) :
    ∀ (sents : List Str) (acc : List DocumentChunk) (cur : Str) (curTok : Nat),
    cur ≠ [] → cfg.maxTokens < curTok →
    ∃ ch ∈ sentenceLoop doc cfg sents acc cur curTok, ch.content = cur := by
  intro sents acc cur curTok hcur hover
  cases sents with
  | nil =>
    rw [sentenceLoop, if_pos hcur]
    exact ⟨createChunk doc cur acc.length curTok,
      List.mem_append_right _ (List.mem_singleton_self _), rfl⟩
  | cons s2 rest =>
    rw [sentenceLoop]
    dsimp only
    rw [if_neg (by omega : ¬(curTok + estimateTokens s2 ≤ cfg.maxTokens)), if_pos hcur]
    exact ⟨createChunk doc cur acc.length curTok,
      sentenceLoop_mono doc cfg rest _ s2 _ _
        (List.mem_append_right _ (List.mem_singleton_self _)), rfl⟩

/-- An over-budget sentence is never dropped by the sentence loop: it
becomes the new current chunk and is flushed whole as the content of
some emitted chunk. -/
theorem sentenceLoop_oversized (doc : RawDocument) (cfg : ChunkingConfig) :
    ∀ (sents : List Str) (acc : List DocumentChunk) (cur : Str) (curTok : Nat),
    ∀ s ∈ sents, cfg.maxTokens < estimateTokens s →
    ∃ ch ∈ sentenceLoop doc cfg sents acc cur curTok, ch.content = s := by
  intro sents
  induction sents with
  | nil => intro _ _ _ s hs _; exact absurd hs (List.not_mem_nil s)
  | cons s0 rest ih =>
    intro acc cur curTok s hs hsover
    rw [sentenceLoop]
    dsimp only
    rcases List.mem_cons.mp hs with h | h
    · subst h
      rw [if_neg (by omega : ¬(curTok + estimateTokens s ≤ cfg.maxTokens))]
      have hne : s ≠ [] := by
        intro h0
        rw [h0] at hsover
        simp [estimateTokens] at hsover
      exact sentenceLoop_flush doc cfg rest _ s _ hne hsover
    · by_cases hfit : curTok + estimateTokens s0 ≤ cfg.maxTokens
      · rw [if_pos hfit]
        exact ih _ _ _ s h hsover
      · rw [if_neg hfit]
        exact ih _ _ _ s h hsover

/-- The section loop never removes an accumulated chunk. -/
theorem sectionLoop_mono (doc : RawDocument) (cfg : ChunkingConfig) :
    ∀ (secs : List Str) (acc : List DocumentChunk) (c : DocumentChunk),
    c ∈ acc → c ∈ sectionLoop doc cfg secs acc := by
  intro secs
  induction secs with
  | nil =>
    intro acc c hc
    rw [sectionLoop]
    exact hc
  | cons sec rest ih =>
    intro acc c hc
    rw [sectionLoop]
    by_cases hfit : estimateTokens sec ≤ cfg.maxTokens
    · rw [if_pos hfit]
      exact ih _ c (List.mem_append_left _ hc)
    · rw [if_neg hfit]
      exact ih _ c (appendSubs_mono doc _ _ c hc)

/-- An over-budget section is never dropped by the section loop: every
word-window segment of it is the content of some emitted chunk. -/
theorem sectionLoop_oversized (doc : RawDocument) (cfg : ChunkingConfig) :
    ∀ (secs : List Str) (acc : List DocumentChunk),
    ∀ sec ∈ secs, cfg.maxTokens < estimateTokens sec →
    ∀ s ∈ splitLongText sec cfg.maxTokens cfg.overlapTokens,
    ∃ ch ∈ sectionLoop doc cfg secs acc, ch.content = s := by
  intro secs
  induction secs with
  | nil => intro _ sec hsec _ _ _; exact absurd hsec (List.not_mem_nil sec)
  | cons sec0 rest ih =>
    intro acc sec hsec hsecover s hs
    rw [sectionLoop]
    rcases List.mem_cons.mp hsec with h | h
    · subst h
      rw [if_neg (by omega : ¬(estimateTokens sec ≤ cfg.maxTokens))]
      obtain ⟨ch, hch, hcont⟩ := appendSubs_content doc
        (splitLongText sec cfg.maxTokens cfg.overlapTokens) acc s hs
      exact ⟨ch, sectionLoop_mono doc cfg rest _ ch hch, hcont⟩
    · by_cases hfit : estimateTokens sec0 ≤ cfg.maxTokens
      · rw [if_pos hfit]
        exact ih _ sec h hsecover s hs
      · rw [if_neg hfit]
        exact ih _ sec h hsecover s hs

/-- Claim C3 as stated: under every chunking configuration, every chunk
produced by `SemanticChunker.chunk` has estimated token count at most
`max_tokens`, or is a single unsplittable unit (a single word, which the
word-window splitter cannot split further). -/
def withinBudgetOrAtomic (defaultCfg : Option ChunkingConfig) (doc : RawDocument) : Prop :=
  ∀ c ∈ chunk defaultCfg doc,
    c.tokenCount ≤ (defaultCfg.getD (defaultConfigs doc.source)).maxTokens ∨
    (pyWords c.content).length ≤ 1

/-- A chat document whose body is one long sentence (no sentence-ending
punctuation), over the budget of the configuration it is chunked with. -/
def c3Doc : RawDocument :=
  { id := "d3".data, tenantId := "t".data, source := .slack, sourceId := "s3".data,
    title := none, body := "aaaa bbbb cccc dddd e".data, threadId := none, timestamp := 0 }

/-- Counterexample to C3 as stated: with `max_tokens = 4`, the chat
strategy routes the 5-token body of `c3Doc` to the sentence splitter,
which finds a single 5-word sentence and emits it whole — a chunk over
budget that is not an unsplittable unit and was never given to the
word-window splitter. -/
theorem chunk_over_budget_counterexample :
    ¬ withinBudgetOrAtomic (some ⟨4, 0, 100⟩) c3Doc := by
  unfold withinBudgetOrAtomic
  decide

/-- Claim C3 (corrected).  Budget soundness (first conjunct): every
chunk either fits the token budget, or is a single whole sentence
emitted by the chat strategy's sentence packing (which never invokes the
word-window splitter), or is a word-window segment of an oversized unit
(paragraph or section) — such a segment is bounded in words but can
itself exceed `max_tokens` when its words are long.  Drop-freedom for
oversized units (remaining conjuncts): on the email path every
word-window segment of an over-budget paragraph is the content of some
emitted chunk; on the chat path an over-budget sentence is emitted in
full as the content of some chunk; on the generic path the same holds
for over-budget sections when the text splits into several sections, and
for over-budget paragraphs on its email fallback otherwise. -/
theorem chunk_token_budget (defaultCfg : Option ChunkingConfig) (doc : RawDocument) :
    (∀ c ∈ chunk defaultCfg doc,
      c.tokenCount ≤ (defaultCfg.getD (defaultConfigs doc.source)).maxTokens ∨
      (doc.source.isChat = true ∧ c.content ∈ splitSentences doc.body ∧
        c.tokenCount = estimateTokens c.content) ∨
      (∃ u, estimateTokens u > (defaultCfg.getD (defaultConfigs doc.source)).maxTokens ∧
        c.content ∈ splitLongText u (defaultCfg.getD (defaultConfigs doc.source)).maxTokens
          (defaultCfg.getD (defaultConfigs doc.source)).overlapTokens)) ∧
    (doc.source.isEmail = true →
      ¬ estimateTokens doc.body ≤ (defaultCfg.getD (defaultConfigs doc.source)).maxTokens →
      ∀ p ∈ splitNN doc.body,
        (defaultCfg.getD (defaultConfigs doc.source)).maxTokens < estimateTokens p →
      ∀ s ∈ splitLongText p (defaultCfg.getD (defaultConfigs doc.source)).maxTokens
          (defaultCfg.getD (defaultConfigs doc.source)).overlapTokens,
      ∃ ch ∈ chunk defaultCfg doc, ch.content = s) ∧
    (doc.source.isEmail = false → doc.source.isChat = true →
      ¬ estimateTokens doc.body ≤ (defaultCfg.getD (defaultConfigs doc.source)).maxTokens →
      ∀ s ∈ splitSentences doc.body,
        (defaultCfg.getD (defaultConfigs doc.source)).maxTokens < estimateTokens s →
      ∃ ch ∈ chunk defaultCfg doc, ch.content = s) ∧
    (doc.source.isEmail = false → doc.source.isChat = false →
      ¬ estimateTokens doc.body ≤ (defaultCfg.getD (defaultConfigs doc.source)).maxTokens →
      ((splitAtHeaders doc.body).length > 1 →
        ∀ sec ∈ splitAtHeaders doc.body,
          (defaultCfg.getD (defaultConfigs doc.source)).maxTokens < estimateTokens sec →
        ∀ s ∈ splitLongText sec (defaultCfg.getD (defaultConfigs doc.source)).maxTokens
            (defaultCfg.getD (defaultConfigs doc.source)).overlapTokens,
        ∃ ch ∈ chunk defaultCfg doc, ch.content = s) ∧
      (¬ (splitAtHeaders doc.body).length > 1 →
        ∀ p ∈ splitNN doc.body,
          (defaultCfg.getD (defaultConfigs doc.source)).maxTokens < estimateTokens p →
        ∀ s ∈ splitLongText p (defaultCfg.getD (defaultConfigs doc.source)).maxTokens
            (defaultCfg.getD (defaultConfigs doc.source)).overlapTokens,
        ∃ ch ∈ chunk defaultCfg doc, ch.content = s)) := by
  refine ⟨?_, ?_, ?_, ?_⟩
  · intro c hc
    rw [chunk] at hc
    by_cases hemail : doc.source.isEmail = true
    · rw [if_pos hemail] at hc
      rw [chunkEmail] at hc
      by_cases hfit : estimateTokens doc.body ≤ (defaultCfg.getD (defaultConfigs doc.source)).maxTokens
      · rw [if_pos hfit] at hc
        rw [List.mem_singleton.mp hc]
        exact Or.inl hfit
      · rw [if_neg hfit] at hc
        rcases emailLoop_budget doc _ _ [] [] 0 (by intro c2 hc2; exact absurd hc2 (List.not_mem_nil c2))
          (Nat.zero_le _) c hc with h | h
        · exact Or.inl h
        · exact Or.inr (Or.inr h)
    · rw [if_neg hemail] at hc
      by_cases hchat : doc.source.isChat = true
      · rw [if_pos hchat] at hc
        rw [chunkChat] at hc
        by_cases hfit : estimateTokens doc.body ≤ (defaultCfg.getD (defaultConfigs doc.source)).maxTokens
        · rw [if_pos hfit] at hc
          rw [List.mem_singleton.mp hc]
          exact Or.inl hfit
        · rw [if_neg hfit] at hc
          rw [splitAtSentences] at hc
          rcases sentenceLoop_budget doc _ (splitSentences doc.body) _ [] [] 0
            (fun s hs => hs) (by intro c2 hc2; exact absurd hc2 (List.not_mem_nil c2))
            (Or.inl (Nat.zero_le _)) c hc with h | h
          · exact Or.inl h
          · exact Or.inr (Or.inl ⟨hchat, h⟩)
      · rw [if_neg hchat] at hc
        rw [chunkGeneric] at hc
        by_cases hfit : estimateTokens doc.body ≤ (defaultCfg.getD (defaultConfigs doc.source)).maxTokens
        · rw [if_pos hfit] at hc
          rw [List.mem_singleton.mp hc]
          exact Or.inl hfit
        · rw [if_neg hfit] at hc
          by_cases hsec : (splitAtHeaders doc.body).length > 1
          · rw [if_pos hsec] at hc
            rcases sectionLoop_budget doc _ _ []
              (by intro c2 hc2; exact absurd hc2 (List.not_mem_nil c2)) c hc with h | h
            · exact Or.inl h
            · exact Or.inr (Or.inr h)
          · rw [if_neg hsec] at hc
            rw [chunkEmail, if_neg hfit] at hc
            rcases emailLoop_budget doc _ _ [] [] 0
              (by intro c2 hc2; exact absurd hc2 (List.not_mem_nil c2)) (Nat.zero_le _) c hc with h | h
            · exact Or.inl h
            · exact Or.inr (Or.inr h)
  · intro hemail hover p hp hpover s hs
    rw [chunk, if_pos hemail, chunkEmail, if_neg hover]
    exact emailLoop_oversized doc _ (splitNN doc.body) [] [] 0 p hp hpover s hs
  · intro hem hchat hover s hs hsover
    rw [chunk, if_neg (by simp [hem]), if_pos hchat, chunkChat, if_neg hover, splitAtSentences]
    exact sentenceLoop_oversized doc _ (splitSentences doc.body) [] [] 0 s hs hsover
  · intro hem hchat hover
    constructor
    · intro hsec sec hsecmem hsecover s hs
      rw [chunk, if_neg (by simp [hem]), if_neg (by simp [hchat]), chunkGeneric,
        if_neg hover, if_pos hsec]
      exact sectionLoop_oversized doc _ (splitAtHeaders doc.body) [] sec hsecmem hsecover s hs
    · intro hsec p hp hpover s hs
      rw [chunk, if_neg (by simp [hem]), if_neg (by simp [hchat]), chunkGeneric,
        if_neg hover, if_neg hsec, chunkEmail, if_neg hover]
      exact emailLoop_oversized doc _ (splitNN doc.body) [] [] 0 p hp hpover s hs

/-- Witness for the amended C3: the oversized single-sentence chat chunk
of the counterexample falls under the sentence-packing disjunct of the
budget conjunct, and the drop-freedom conjunct places that whole
sentence as the content of an emitted chunk. -/
theorem chunk_token_budget_witness :
    ((createChunk c3Doc "aaaa bbbb cccc dddd e".data 0 5).tokenCount ≤ 4 ∨
     (DataSource.isChat c3Doc.source = true ∧
       (createChunk c3Doc "aaaa bbbb cccc dddd e".data 0 5).content ∈
         splitSentences c3Doc.body ∧
       (createChunk c3Doc "aaaa bbbb cccc dddd e".data 0 5).tokenCount =
         estimateTokens (createChunk c3Doc "aaaa bbbb cccc dddd e".data 0 5).content) ∨
     (∃ u, estimateTokens u > 4 ∧
       (createChunk c3Doc "aaaa bbbb cccc dddd e".data 0 5).content ∈
         splitLongText u 4 0)) ∧
    ∃ ch ∈ chunk (some ⟨4, 0, 100⟩) c3Doc,
      ch.content = "aaaa bbbb cccc dddd e".data := by
  refine ⟨(chunk_token_budget (some ⟨4, 0, 100⟩) c3Doc).1
      (createChunk c3Doc "aaaa bbbb cccc dddd e".data 0 5) (by decide),
    (chunk_token_budget (some ⟨4, 0, 100⟩) c3Doc).2.2.1 (by decide) (by decide) (by decide)
      "aaaa bbbb cccc dddd e".data (by decide) (by decide)⟩

/-- Well-formedness of an accumulated chunk list: the chunk indices form
the dense sequence `0..n-1` in order (each append uses `len(chunks)`),
and every chunk carries the document's id and tenant id (set by
`_create_chunk`). -/
def ChunksOk (doc : RawDocument) (cs : List DocumentChunk) : Prop :=
  cs.map (fun c => c.chunkIndex) = List.range cs.length ∧
  ∀ c ∈ cs, c.documentId = doc.id ∧ c.tenantId = doc.tenantId

theorem chunksOk_nil (doc : RawDocument) : ChunksOk doc [] :=
  ⟨rfl, fun c hc => absurd hc (List.not_mem_nil c)⟩

theorem chunksOk_append (doc : RawDocument) (acc : List DocumentChunk) (content : Str)
    (tok : Nat) (h : ChunksOk doc acc) :
    ChunksOk doc (acc ++ [createChunk doc content acc.length tok]) := by
  constructor
  · rw [List.map_append, h.1, List.length_append]
    simp [createChunk, List.range_succ]
  · intro c hc
    rcases List.mem_append.mp hc with h1 | h1
    · exact h.2 c h1
    · rw [List.mem_singleton.mp h1]
      exact ⟨rfl, rfl⟩

theorem chunksOk_single (doc : RawDocument) (content : Str) (tok : Nat) :
    ChunksOk doc [createChunk doc content 0 tok] := by
  have h := chunksOk_append doc [] content tok (chunksOk_nil doc)
  simpa using h

theorem appendSubs_chunksOk (doc : RawDocument) (subs : List Str) :
    ∀ acc, ChunksOk doc acc → ChunksOk doc (appendSubs doc acc subs) := by
  induction subs with
  | nil => intro acc h; exact h
  | cons s ss ih =>
    intro acc h
    rw [appendSubs]
    exact ih _ (chunksOk_append doc acc s (estimateTokens s) h)

/-- The paragraph loop of `_chunk_email` keeps the chunk list well formed
and, whenever there is pending content anywhere (accumulated chunks, a
current chunk, or a non-empty paragraph), returns a non-empty list;
over-budget paragraphs must have words so the word-window splitter
produces at least one segment. -/
theorem emailLoop_wf (doc : RawDocument) (cfg : ChunkingConfig)
    (hwpc : 1 ≤ cfg.maxTokens * 3 / 4) :
    ∀ (paras : List Str) (acc : List DocumentChunk) (cur : Str) (curTok : Nat),
    ChunksOk doc acc →
    (∀ p ∈ paras, estimateTokens p > cfg.maxTokens → pyWords p ≠ []) →
    ChunksOk doc (emailLoop doc cfg paras acc cur curTok) ∧
    ((acc ≠ [] ∨ cur ≠ [] ∨ ∃ p ∈ paras, p ≠ []) →
      emailLoop doc cfg paras acc cur curTok ≠ []) := by
  intro paras
  induction paras with
  | nil =>
    intro acc cur curTok hacc _
    rw [emailLoop]
    by_cases hne : cur ≠ []
    · rw [if_pos hne]
      exact ⟨chunksOk_append doc acc cur curTok hacc, fun _ => by simp⟩
    · rw [if_neg hne]
      refine ⟨hacc, fun hd => ?_⟩
      rcases hd with h | h | ⟨p, hp, _⟩
      · exact h
      · exact absurd h hne
      · exact absurd hp (List.not_mem_nil p)
  | cons para rest ih =>
    intro acc cur curTok hacc hparas
    have hrest : ∀ p ∈ rest, estimateTokens p > cfg.maxTokens → pyWords p ≠ [] :=
      fun p hp => hparas p (List.mem_cons_of_mem _ hp)
    rw [emailLoop]
    dsimp only
    by_cases hfit : curTok + estimateTokens para ≤ cfg.maxTokens
    · rw [if_pos hfit]
      obtain ⟨hok, hne⟩ := ih acc (cur ++ (if cur ≠ [] then ['\n', '\n'] else []) ++ para)
        (curTok + estimateTokens para) hacc hrest
      refine ⟨hok, fun hd => hne ?_⟩
      rcases hd with h | h | ⟨p, hp, hpne⟩
      · exact Or.inl h
      · refine Or.inr (Or.inl ?_)
        intro hnil
        exact h (List.append_eq_nil.mp (List.append_eq_nil.mp hnil).1).1
      · rcases List.mem_cons.mp hp with h1 | h1
        · refine Or.inr (Or.inl ?_)
          intro hnil
          exact hpne (h1 ▸ (List.append_eq_nil.mp hnil).2)
        · exact Or.inr (Or.inr ⟨p, h1, hpne⟩)
    · rw [if_neg hfit]
      have hacc1 : ChunksOk doc
          (if cur ≠ [] then acc ++ [createChunk doc cur acc.length curTok] else acc) := by
        by_cases hne : cur ≠ []
        · rw [if_pos hne]; exact chunksOk_append doc acc cur curTok hacc
        · rw [if_neg hne]; exact hacc
      by_cases hlong : estimateTokens para > cfg.maxTokens
      · rw [if_pos hlong]
        have hsubs : splitLongText para cfg.maxTokens cfg.overlapTokens ≠ [] :=
          splitLongText_ne_nil para _ _ (hparas para (List.mem_cons_self _ _) hlong) hwpc
        obtain ⟨hok, hne2⟩ := ih _ [] 0 (appendSubs_chunksOk doc _ _ hacc1) hrest
        exact ⟨hok, fun _ => hne2 (Or.inl (appendSubs_ne_nil doc _ _ (Or.inr hsubs)))⟩
      · rw [if_neg hlong]
        obtain ⟨hok, hne2⟩ := ih _ para (estimateTokens para) hacc1 hrest
        refine ⟨hok, fun hd => hne2 ?_⟩
        by_cases hne : cur ≠ []
        · exact Or.inl (by rw [if_pos hne]; simp)
        · rcases hd with h | h | ⟨p, hp, hpne⟩
          · exact Or.inl (by rw [if_neg hne]; exact h)
          · exact absurd h hne
          · rcases List.mem_cons.mp hp with h1 | h1
            · exact Or.inr (Or.inl (h1 ▸ hpne))
            · exact Or.inr (Or.inr ⟨p, h1, hpne⟩)

/-- The sentence loop of `_split_at_sentences` keeps the chunk list well
formed and returns a non-empty list whenever there is pending content;
`curTok` is zero whenever the current chunk is empty, so an oversized
sentence always starts a new non-empty current chunk. -/
theorem sentenceLoop_wf (doc : RawDocument) (cfg : ChunkingConfig) :
    ∀ (sents : List Str) (acc : List DocumentChunk) (cur : Str) (curTok : Nat),
    ChunksOk doc acc → (cur = [] → curTok = 0) →
    ChunksOk doc (sentenceLoop doc cfg sents acc cur curTok) ∧
    ((acc ≠ [] ∨ cur ≠ [] ∨ ∃ s ∈ sents, s ≠ []) →
      sentenceLoop doc cfg sents acc cur curTok ≠ []) := by
  intro sents
  induction sents with
  | nil =>
    intro acc cur curTok hacc _
    rw [sentenceLoop]
    by_cases hne : cur ≠ []
    · rw [if_pos hne]
      exact ⟨chunksOk_append doc acc cur curTok hacc, fun _ => by simp⟩
    · rw [if_neg hne]
      refine ⟨hacc, fun hd => ?_⟩
      rcases hd with h | h | ⟨p, hp, _⟩
      · exact h
      · exact absurd h hne
      · exact absurd hp (List.not_mem_nil p)
  | cons s rest ih =>
    intro acc cur curTok hacc hsync
    rw [sentenceLoop]
    dsimp only
    by_cases hfit : curTok + estimateTokens s ≤ cfg.maxTokens
    · rw [if_pos hfit]
      have hsync2 : (cur ++ (if cur ≠ [] then [' '] else []) ++ s) = [] →
          curTok + estimateTokens s = 0 := by
        intro hnil
        have h1 := List.append_eq_nil.mp hnil
        have hcur := (List.append_eq_nil.mp h1.1).1
        rw [hsync hcur, h1.2]
        rfl
      obtain ⟨hok, hne⟩ := ih acc _ _ hacc hsync2
      refine ⟨hok, fun hd => hne ?_⟩
      rcases hd with h | h | ⟨p, hp, hpne⟩
      · exact Or.inl h
      · refine Or.inr (Or.inl ?_)
        intro hnil
        exact h (List.append_eq_nil.mp (List.append_eq_nil.mp hnil).1).1
      · rcases List.mem_cons.mp hp with h1 | h1
        · refine Or.inr (Or.inl ?_)
          intro hnil
          exact hpne (h1 ▸ (List.append_eq_nil.mp hnil).2)
        · exact Or.inr (Or.inr ⟨p, h1, hpne⟩)
    · rw [if_neg hfit]
      have hacc1 : ChunksOk doc
          (if cur ≠ [] then acc ++ [createChunk doc cur acc.length curTok] else acc) := by
        by_cases hne : cur ≠ []
        · rw [if_pos hne]; exact chunksOk_append doc acc cur curTok hacc
        · rw [if_neg hne]; exact hacc
      obtain ⟨hok, hne2⟩ := ih _ s (estimateTokens s) hacc1 (fun hs => by rw [hs]; rfl)
      refine ⟨hok, fun _ => hne2 ?_⟩
      by_cases hne : cur ≠ []
      · exact Or.inl (by rw [if_pos hne]; simp)
      · have hz := hsync (not_not.mp hne)
        have hs : s ≠ [] := by
          intro hs0
          apply hfit
          rw [hz, hs0]
          simp [estimateTokens]
        exact Or.inr (Or.inl hs)

/-- The section loop of `_chunk_generic` keeps the chunk list well formed
and appends at least one chunk per section when every over-budget section
has words. -/
theorem sectionLoop_wf (doc : RawDocument) (cfg : ChunkingConfig)
    (hwpc : 1 ≤ cfg.maxTokens * 3 / 4) :
    ∀ (secs : List Str) (acc : List DocumentChunk),
    ChunksOk doc acc →
    (∀ sec ∈ secs, estimateTokens sec > cfg.maxTokens → pyWords sec ≠ []) →
    ChunksOk doc (sectionLoop doc cfg secs acc) ∧
    ((acc ≠ [] ∨ secs ≠ []) → sectionLoop doc cfg secs acc ≠ []) := by
  intro secs
  induction secs with
  | nil =>
    intro acc hacc _
    rw [sectionLoop]
    refine ⟨hacc, fun hd => ?_⟩
    rcases hd with h | h
    · exact h
    · exact absurd rfl h
  | cons sec rest ih =>
    intro acc hacc hsecs
    have hrest : ∀ p ∈ rest, estimateTokens p > cfg.maxTokens → pyWords p ≠ [] :=
      fun p hp => hsecs p (List.mem_cons_of_mem _ hp)
    rw [sectionLoop]
    by_cases hfit : estimateTokens sec ≤ cfg.maxTokens
    · rw [if_pos hfit]
      obtain ⟨hok, hne⟩ := ih _ (chunksOk_append doc acc sec (estimateTokens sec) hacc) hrest
      exact ⟨hok, fun _ => hne (Or.inl (by simp))⟩
    · rw [if_neg hfit]
      have hw : pyWords sec ≠ [] := hsecs sec (List.mem_cons_self _ _) (by omega)
      have hsubs := splitLongText_ne_nil sec cfg.maxTokens cfg.overlapTokens hw hwpc
      obtain ⟨hok, hne⟩ := ih _ (appendSubs_chunksOk doc _ _ hacc) hrest
      exact ⟨hok, fun _ => hne (Or.inl (appendSubs_ne_nil doc _ _ (Or.inr hsubs)))⟩

/-- Every section produced by `_split_at_headers` is non-empty and
stripped, so it has at least one word. -/
theorem splitAtHeaders_sec_words (t sec : Str) (hsec : sec ∈ splitAtHeaders t) :
    pyWords sec ≠ [] := by
  rw [splitAtHeaders] at hsec
  have h2 := List.mem_filter.mp hsec
  have hne : sec ≠ [] := by simpa using h2.2
  obtain ⟨orig, horig, hstripped⟩ := List.mem_map.mp h2.1
  have hstr : strippedStr sec := hstripped ▸ pyStrip_stripped orig
  obtain ⟨c, cs, hcc⟩ : ∃ c cs, sec = c :: cs := by
    cases hb : sec with
    | nil => exact absurd hb hne
    | cons c cs => exact ⟨c, cs, rfl⟩
  exact pyWords_ne_nil sec ⟨c, by rw [hcc]; exact List.mem_cons_self _ _,
    strippedStr_head sec hstr c cs hcc⟩

/-- `_chunk_email` on a stripped body whose whitespace-only paragraphs
are short (both hold for `_normalize_whitespace` output) returns a
non-empty well-formed chunk list. -/
theorem chunkEmail_wf (doc : RawDocument) (cfg : ChunkingConfig)
    (hstr : strippedStr doc.body)
    (hpara : ∀ p ∈ splitNN doc.body, (∀ c ∈ p, isWs c = true) → p.length ≤ 1)
    (hwpc : 1 ≤ cfg.maxTokens * 3 / 4) :
    ChunksOk doc (chunkEmail doc cfg) ∧ chunkEmail doc cfg ≠ [] := by
  rw [chunkEmail]
  by_cases hfit : estimateTokens doc.body ≤ cfg.maxTokens
  · rw [if_pos hfit]
    exact ⟨chunksOk_single doc doc.body _, by simp⟩
  · rw [if_neg hfit]
    have hargs : ∀ p ∈ splitNN doc.body, estimateTokens p > cfg.maxTokens → pyWords p ≠ [] := by
      intro p hp hover
      by_cases hws : ∀ c ∈ p, isWs c = true
      · have hshort := hpara p hp hws
        simp only [estimateTokens] at hover
        omega
      · push_neg at hws
        obtain ⟨c, hc, hnc⟩ := hws
        exact pyWords_ne_nil p ⟨c, hc, by simpa using hnc⟩
    have hbody : doc.body ≠ [] := by
      intro h0
      apply hfit
      rw [h0]
      simp [estimateTokens]
    obtain ⟨hok, hne⟩ :=
      emailLoop_wf doc cfg hwpc (splitNN doc.body) [] [] 0 (chunksOk_nil doc) hargs
    exact ⟨hok, hne (Or.inr (Or.inr (splitNN_ex_ne_nil doc.body hbody hstr)))⟩

/-- `_chunk_chat` on a stripped body returns a non-empty well-formed
chunk list. -/
theorem chunkChat_wf (doc : RawDocument) (cfg : ChunkingConfig)
    (hstr : strippedStr doc.body) :
    ChunksOk doc (chunkChat doc cfg) ∧ chunkChat doc cfg ≠ [] := by
  rw [chunkChat]
  by_cases hfit : estimateTokens doc.body ≤ cfg.maxTokens
  · rw [if_pos hfit]
    exact ⟨chunksOk_single doc doc.body _, by simp⟩
  · rw [if_neg hfit]
    rw [splitAtSentences]
    have hbody : doc.body ≠ [] := by
      intro h0
      apply hfit
      rw [h0]
      simp [estimateTokens]
    obtain ⟨c, cs, hcc⟩ : ∃ c cs, doc.body = c :: cs := by
      cases hb : doc.body with
      | nil => exact absurd hb hbody
      | cons c cs => exact ⟨c, cs, rfl⟩
    have hex : ∃ p ∈ splitSentences doc.body, p ≠ [] := by
      rw [hcc]
      exact splitSentences_ex c cs (strippedStr_head doc.body hstr c cs hcc)
    obtain ⟨hok, hne⟩ := sentenceLoop_wf doc cfg (splitSentences doc.body) [] [] 0
      (chunksOk_nil doc) (fun _ => rfl)
    exact ⟨hok, hne (Or.inr (Or.inr hex))⟩

/-- `_chunk_generic` on a stripped body whose whitespace-only paragraphs
are short returns a non-empty well-formed chunk list. -/
theorem chunkGeneric_wf (doc : RawDocument) (cfg : ChunkingConfig)
    (hstr : strippedStr doc.body)
    (hpara : ∀ p ∈ splitNN doc.body, (∀ c ∈ p, isWs c = true) → p.length ≤ 1)
    (hwpc : 1 ≤ cfg.maxTokens * 3 / 4) :
    ChunksOk doc (chunkGeneric doc cfg) ∧ chunkGeneric doc cfg ≠ [] := by
  rw [chunkGeneric]
  dsimp only
  by_cases hfit : estimateTokens doc.body ≤ cfg.maxTokens
  · rw [if_pos hfit]
    exact ⟨chunksOk_single doc doc.body _, by simp⟩
  · rw [if_neg hfit]
    by_cases hsec : (splitAtHeaders doc.body).length > 1
    · rw [if_pos hsec]
      obtain ⟨hok, hne⟩ := sectionLoop_wf doc cfg hwpc (splitAtHeaders doc.body) []
        (chunksOk_nil doc) (fun sec hs _ => splitAtHeaders_sec_words doc.body sec hs)
      refine ⟨hok, hne (Or.inr ?_)⟩
      intro h0
      rw [h0] at hsec
      simp at hsec
    · rw [if_neg hsec]
      exact chunkEmail_wf doc cfg hstr hpara hwpc

/-- Every shipped default configuration has a positive word window. -/
theorem defaultConfigs_wpc (s : DataSource) : 1 ≤ (defaultConfigs s).maxTokens * 3 / 4 := by
  cases s <;> decide

/-- `chunk` on a document with a stripped body whose whitespace-only
paragraphs are short returns a non-empty chunk list with dense indices
and the document's ids, whichever strategy the source selects. -/
theorem chunk_wf (defaultCfg : Option ChunkingConfig) (doc : RawDocument)
    (hstr : strippedStr doc.body)
    (hpara : ∀ p ∈ splitNN doc.body, (∀ c ∈ p, isWs c = true) → p.length ≤ 1)
    (hwpc : 1 ≤ (defaultCfg.getD (defaultConfigs doc.source)).maxTokens * 3 / 4) :
    ChunksOk doc (chunk defaultCfg doc) ∧ chunk defaultCfg doc ≠ [] := by
  rw [chunk]
  by_cases h1 : doc.source.isEmail = true
  · rw [if_pos h1]
    exact chunkEmail_wf doc _ hstr hpara hwpc
  · rw [if_neg h1]
    by_cases h2 : doc.source.isChat = true
    · rw [if_pos h2]
      exact chunkChat_wf doc _ hstr
    · rw [if_neg h2]
      exact chunkGeneric_wf doc _ hstr hpara hwpc

end SemanticChunker

/-- A generic-path document with a plainly non-empty body. -/
def c2Doc : RawDocument :=
  { id := "d2".data, tenantId := "t2".data, source := .m365File, sourceId := "s2".data,
    title := none, body := "alpha beta".data, threadId := none, timestamp := 0 }

/-- Claim C2: for every raw document with non-empty body — the hypothesis
mirrors the claim; the conclusion in fact needs no emptiness assumption —
chunking the parsed document with the per-source default configuration
returns at least one chunk, the chunk indices form the dense sequence
`0..n-1` in output order, and every chunk carries the document's id and
tenant id. -/
theorem chunk_parse_wellformed (htmlToText : Str → Str) (d : RawDocument)
    (hbody : d.body ≠ []) :
    SemanticChunker.chunk none (DocumentParser.parse htmlToText d) ≠ [] ∧
    (SemanticChunker.chunk none (DocumentParser.parse htmlToText d)).map
        (fun c => c.chunkIndex) =
      List.range (SemanticChunker.chunk none (DocumentParser.parse htmlToText d)).length ∧
    ∀ ch ∈ SemanticChunker.chunk none (DocumentParser.parse htmlToText d),
      ch.documentId = d.id ∧ ch.tenantId = d.tenantId := by
  obtain ⟨x, hx⟩ : ∃ x, (DocumentParser.parse htmlToText d).body = normalizeWhitespace x := by
    have hbform : (DocumentParser.parse htmlToText d).body =
        (if d.source.isEmail then parseEmail htmlToText d.body
         else if d.source.isChat then parseChat htmlToText d.body
         else parseGeneric htmlToText d.body) := rfl
    rw [hbform]
    by_cases h1 : d.source.isEmail = true
    · rw [if_pos h1]
      exact ⟨_, rfl⟩
    · rw [if_neg h1]
      by_cases h2 : d.source.isChat = true
      · rw [if_pos h2]
        exact ⟨_, rfl⟩
      · rw [if_neg h2]
        exact ⟨_, rfl⟩
  have hstr : strippedStr (DocumentParser.parse htmlToText d).body := by
    rw [hx, normalizeWhitespace]
    exact pyStrip_stripped _
  have hpara : ∀ p ∈ splitNN (DocumentParser.parse htmlToText d).body,
      (∀ c ∈ p, isWs c = true) → p.length ≤ 1 := by
    rw [hx]
    exact fun p hp hws => normalize_ws_para_short x p hp hws
  have hwf := SemanticChunker.chunk_wf none (DocumentParser.parse htmlToText d) hstr hpara
    (SemanticChunker.defaultConfigs_wpc _)
  exact ⟨hwf.2, hwf.1.1, fun ch hch => hwf.1.2 ch hch⟩

/-- Witness for C2: the non-empty generic document `c2Doc`. -/
theorem chunk_parse_wellformed_witness :
    c2Doc.body ≠ [] ∧
    (SemanticChunker.chunk none (DocumentParser.parse (fun s => s) c2Doc) ≠ [] ∧
     (SemanticChunker.chunk none (DocumentParser.parse (fun s => s) c2Doc)).map
         (fun c => c.chunkIndex) =
       List.range
         (SemanticChunker.chunk none (DocumentParser.parse (fun s => s) c2Doc)).length ∧
     ∀ ch ∈ SemanticChunker.chunk none (DocumentParser.parse (fun s => s) c2Doc),
       ch.documentId = c2Doc.id ∧ ch.tenantId = c2Doc.tenantId) :=
  ⟨by decide, chunk_parse_wellformed (fun s => s) c2Doc (by decide)⟩

/-! ## Claim C6: empty or whitespace-only parsed body -/

namespace IngestionOrchestrator

/-- An environment whose external stages all succeed trivially. -/
def benignEnv : IngestEnv :=
  { htmlToText := fun s => s
    extract := fun _ => .ok ([], [])
    embedChunks := fun cs => .ok (cs.map (fun c => (c, ([] : Vec))))
    upsertOutcome := .ok ()
    schemaOutcome := .ok ()
    createOutcome := fun _ => .ok ()
    linkOutcome := fun _ _ => .ok ()
    now := 0 }

/-- An email document whose body is whitespace only (parsed to empty). -/
def c6Doc : RawDocument :=
  { id := "d6".data, tenantId := "t".data, source := .m365Email, sourceId := "s6".data,
    title := none, body := "   ".data, threadId := none, timestamp := 0 }

/-- Counterexample to C6 as stated: for the whitespace-only email
`c6Doc`, the parsed body is empty, the chunker returns exactly one chunk
whose content is empty, and `ingest` (with all external stages
succeeding) indexes the document instead of rejecting it. -/
theorem empty_body_chunk_counterexample :
    (DocumentParser.parse (fun s => s) c6Doc).body = [] ∧
    SemanticChunker.chunk none (DocumentParser.parse (fun s => s) c6Doc) =
      [SemanticChunker.createChunk (DocumentParser.parse (fun s => s) c6Doc) [] 0 0] ∧
    (SemanticChunker.createChunk (DocumentParser.parse (fun s => s) c6Doc) [] 0 0).content
      = [] ∧
    (ingest benignEnv c6Doc).1.status = .indexed := by
  refine ⟨by decide, by decide, by decide, by decide⟩

/-- For any document whose parsed body is empty, every strategy of the
chunker takes its within-budget branch and returns the single empty
chunk. -/
theorem chunk_empty_body (defaultCfg : Option ChunkingConfig) (doc : RawDocument)
    (hbody : doc.body = []) :
    SemanticChunker.chunk defaultCfg doc = [SemanticChunker.createChunk doc [] 0 0] := by
  have h0 : estimateTokens [] = 0 := rfl
  rw [SemanticChunker.chunk]
  by_cases hemail : doc.source.isEmail = true
  · rw [if_pos hemail, SemanticChunker.chunkEmail, hbody]
    rw [h0, if_pos (Nat.zero_le _)]
  · rw [if_neg hemail]
    by_cases hchat : doc.source.isChat = true
    · rw [if_pos hchat, SemanticChunker.chunkChat, hbody]
      rw [h0, if_pos (Nat.zero_le _)]
    · rw [if_neg hchat, SemanticChunker.chunkGeneric, hbody]
      rw [h0, if_pos (Nat.zero_le _)]

/-- A parseable email document with a plainly non-empty body. -/
def c5Doc : RawDocument :=
  { id := "d5".data, tenantId := "t".data, source := .m365Email, sourceId := "s5".data,
    title := none, body := "hello world".data, threadId := none, timestamp := 0 }

/-- The effects `graphLoop` issues when every create/link call succeeds:
a create followed by a link, per entity, in order. -/
def graphEffects (tenantId docId : Str) : List Entity → List Effect
  | [] => []
  | e :: es =>
    .entityCreated tenantId e :: .entityLinked tenantId e.id docId ::
      graphEffects tenantId docId es

/-- When every per-chunk extraction succeeds, `extractLoop` succeeds; on a
non-empty chunk list the loop variable of the last iteration is bound. -/
theorem extractLoop_ok (ex : DocumentChunk → Except Str (List Entity × List EntityMention))
    (hex : ∀ c, ∃ v, ex c = .ok v) :
    ∀ (chunks : List DocumentChunk) (st : List Entity × List EntityMention × Option (List Entity)),
    ∃ out, extractLoop ex chunks st = .ok out ∧
      (chunks = [] → out = st) ∧ (chunks ≠ [] → out.2.2.isSome = true) := by
  intro chunks
  induction chunks with
  | nil =>
    intro st
    exact ⟨st, rfl, fun _ => rfl, fun h => absurd rfl h⟩
  | cons c cs ih =>
    intro st
    obtain ⟨es, ms, last⟩ := st
    obtain ⟨v, hv⟩ := hex c
    obtain ⟨ents, mens⟩ := v
    obtain ⟨out, hout, hnil, hsome⟩ := ih (es ++ ents, ms ++ mens, some ents)
    refine ⟨out, ?_, fun h => absurd h (List.cons_ne_nil c cs), fun _ => ?_⟩
    · simp only [extractLoop, hv]
      exact hout
    · cases cs with
      | nil => rw [hnil rfl]; rfl
      | cons d ds => exact hsome (List.cons_ne_nil d ds)

/-- When every create and link call succeeds, `graphLoop` issues the
create/link effect pair per entity in order and collects the entity ids
in input order. -/
theorem graphLoop_ok (env : IngestEnv) (t d : Str)
    (hc : ∀ e, env.createOutcome e = .ok ())
    (hl : ∀ a b, env.linkOutcome a b = .ok ()) :
    ∀ (es : List Entity) (ids : List Str),
    graphLoop env t d es ids =
      (graphEffects t d es, .ok (ids ++ es.map (fun e => e.id))) := by
  intro es
  induction es with
  | nil =>
    intro ids
    simp [graphLoop, graphEffects]
  | cons e es ih =>
    intro ids
    simp only [graphLoop, hc e, hl e.id d, ih (ids ++ [e.id]), graphEffects]
    simp

/-- When every stage of the pipeline succeeds and the chunker produced at
least one chunk, `ingest` returns the fully populated `indexed` record. -/
theorem ingest_ok (env : IngestEnv) (doc : RawDocument)
    (hex : ∀ c, ∃ v, env.extract c = .ok v)
    (hemb : ∀ cs, ∃ v, env.embedChunks cs = .ok v)
    (hup : env.upsertOutcome = .ok ())
    (hsc : env.schemaOutcome = .ok ())
    (hc : ∀ e, env.createOutcome e = .ok ())
    (hl : ∀ a b, env.linkOutcome a b = .ok ())
    (hch : SemanticChunker.chunk none (DocumentParser.parse env.htmlToText doc) ≠ []) :
    ∃ ents : List Entity, (ingest env doc).1 =
      { id := doc.id, tenantId := doc.tenantId, source := doc.source,
        sourceId := doc.sourceId, title := doc.title, status := .indexed,
        chunkIds :=
          (SemanticChunker.chunk none (DocumentParser.parse env.htmlToText doc)).map
            (fun c => c.id),
        entityIds := ents.map (fun e => e.id), timestamp := doc.timestamp,
        indexedAt := some env.now, errorMessage := none } := by
  obtain ⟨out, hout, hnil, hsome⟩ :=
    extractLoop_ok env.extract hex
      (SemanticChunker.chunk none (DocumentParser.parse env.htmlToText doc)) ([], [], none)
  obtain ⟨allE, allM, last⟩ := out
  obtain ⟨emb, hembv⟩ :=
    hemb (SemanticChunker.chunk none (DocumentParser.parse env.htmlToText doc))
  have hlast : last.isSome = true := hsome hch
  obtain ⟨l, hlv⟩ := Option.isSome_iff_exists.mp hlast
  refine ⟨allE, ?_⟩
  rw [ingest]
  dsimp only
  simp only [hout, hembv, hup, hsc, graphLoop_ok env doc.tenantId doc.id hc hl, hlv,
    List.nil_append]

/-- Claim C5: `ingest` never lets an exception escape — for every
environment and document it returns a terminal record that is either
`indexed` or the `failed` record carrying some stringified error; when
every stage succeeds and the chunker produced at least one chunk it
returns `indexed` with the chunk ids and extracted entity ids; and when
the graph-schema stage fails after a successful vector upsert, the
returned record is `failed` with that error while the upsert effect
issued before the failure is retained — no rollback. -/
theorem ingest_terminal_no_rollback (env : IngestEnv) (doc : RawDocument) :
    ((ingest env doc).1.status = .indexed ∨
      ∃ msg, (ingest env doc).1 = failedDoc doc msg) ∧
    ((∀ c, ∃ v, env.extract c = .ok v) →
      (∀ cs, ∃ v, env.embedChunks cs = .ok v) →
      env.upsertOutcome = .ok () → env.schemaOutcome = .ok () →
      (∀ e, env.createOutcome e = .ok ()) →
      (∀ a b, env.linkOutcome a b = .ok ()) →
      SemanticChunker.chunk none (DocumentParser.parse env.htmlToText doc) ≠ [] →
      ∃ ents : List Entity,
        (ingest env doc).1.status = .indexed ∧
        (ingest env doc).1.chunkIds =
          (SemanticChunker.chunk none (DocumentParser.parse env.htmlToText doc)).map
            (fun c => c.id) ∧
        (ingest env doc).1.entityIds = ents.map (fun e => e.id) ∧
        (ingest env doc).1.errorMessage = none) ∧
    ((∀ c, ∃ v, env.extract c = .ok v) →
      (∀ cs, ∃ v, env.embedChunks cs = .ok v) →
      env.upsertOutcome = .ok () →
      ∀ msg, env.schemaOutcome = .error msg →
        (ingest env doc).1 = failedDoc doc msg ∧
        ∃ pts, (ingest env doc).2 = [Effect.vectorUpsert doc.tenantId pts]) := by
  refine ⟨?_, ?_, ?_⟩
  · rw [ingest]
    dsimp only
    repeat' split
    all_goals first
      | exact Or.inl rfl
      | exact Or.inr ⟨_, rfl⟩
  · intro hex hemb hup hsc hc hl2 hch
    obtain ⟨ents, hrec⟩ := ingest_ok env doc hex hemb hup hsc hc hl2 hch
    exact ⟨ents, by rw [hrec], by rw [hrec], by rw [hrec], by rw [hrec]⟩
  · intro hex hemb hup msg hscE
    obtain ⟨out, hout, -, -⟩ :=
      extractLoop_ok env.extract hex
        (SemanticChunker.chunk none (DocumentParser.parse env.htmlToText doc)) ([], [], none)
    obtain ⟨allE, allM, last⟩ := out
    obtain ⟨emb, hembv⟩ :=
      hemb (SemanticChunker.chunk none (DocumentParser.parse env.htmlToText doc))
    rw [ingest]
    dsimp only
    simp only [hout, hembv, hup, hscE]
    exact ⟨trivial, emb.map VectorStore.pointOf, rfl⟩

/-- Witness for C5: the benign environment on a plain non-empty email
indexes the document and records its chunk ids. -/
theorem ingest_terminal_no_rollback_witness :
    (ingest benignEnv c5Doc).1.status = .indexed ∧
    (ingest benignEnv c5Doc).1.chunkIds =
      (SemanticChunker.chunk none (DocumentParser.parse benignEnv.htmlToText c5Doc)).map
        (fun c => c.id) := by
  obtain ⟨ents, h1, h2, h3, h4⟩ :=
    (ingest_terminal_no_rollback benignEnv c5Doc).2.1
      (fun c => ⟨([], []), rfl⟩) (fun cs => ⟨cs.map (fun c => (c, ([] : Vec))), rfl⟩)
      rfl rfl (fun e => rfl) (fun a b => rfl) (by decide)
  exact ⟨h1, h2⟩

/-- Claim C6 (corrected): a document whose parsed body is empty — in
particular a whitespace-only body — is NOT rejected upstream: the chunker
returns exactly one chunk with empty content, and with every downstream
stage succeeding `ingest` indexes the document, its chunk-id list being
exactly the id of that single empty chunk. -/
theorem empty_parsed_body_indexed (env : IngestEnv) (doc : RawDocument)
    (hbody : (DocumentParser.parse env.htmlToText doc).body = [])
    (hex : ∀ c, ∃ v, env.extract c = .ok v)
    (hemb : ∀ cs, ∃ v, env.embedChunks cs = .ok v)
    (hup : env.upsertOutcome = .ok ())
    (hsc : env.schemaOutcome = .ok ())
    (hc : ∀ e, env.createOutcome e = .ok ())
    (hl : ∀ a b, env.linkOutcome a b = .ok ()) :
    SemanticChunker.chunk none (DocumentParser.parse env.htmlToText doc) =
      [SemanticChunker.createChunk (DocumentParser.parse env.htmlToText doc) [] 0 0] ∧
    (ingest env doc).1.status = .indexed ∧
    (ingest env doc).1.chunkIds =
      [(SemanticChunker.createChunk (DocumentParser.parse env.htmlToText doc) [] 0 0).id] := by
  have hchunk := chunk_empty_body none (DocumentParser.parse env.htmlToText doc) hbody
  obtain ⟨ents, hrec⟩ :=
    ingest_ok env doc hex hemb hup hsc hc hl (by rw [hchunk]; simp)
  refine ⟨hchunk, by rw [hrec], ?_⟩
  rw [hrec]
  dsimp only
  rw [hchunk]
  simp

/-- Witness for C6: the whitespace-only email `c6Doc` under the benign
environment. -/
theorem empty_parsed_body_indexed_witness :
    SemanticChunker.chunk none (DocumentParser.parse benignEnv.htmlToText c6Doc) =
      [SemanticChunker.createChunk (DocumentParser.parse benignEnv.htmlToText c6Doc) [] 0 0] ∧
    (ingest benignEnv c6Doc).1.status = .indexed ∧
    (ingest benignEnv c6Doc).1.chunkIds =
      [(SemanticChunker.createChunk (DocumentParser.parse benignEnv.htmlToText c6Doc) [] 0 0).id] :=
  empty_parsed_body_indexed benignEnv c6Doc (by decide)
    (fun c => ⟨([], []), rfl⟩) (fun cs => ⟨cs.map (fun c => (c, ([] : Vec))), rfl⟩)
    rfl rfl (fun e => rfl) (fun a b => rfl)

end IngestionOrchestrator

/-- Witness for C1: a two-tenant trace; the entity lookup for tenant `tA`
returns only the entity created by `tA`, even though `tB` wrote an
entity with the same name. -/
theorem tenant_isolation_witness :
    GraphStore.findEntitiesByName
        (applyOps ([], [])
          [.gcreate "tA".data ⟨"eA".data, "tA".data, "person".data, "Jane".data, []⟩,
           .gcreate "tB".data ⟨"eB".data, "tB".data, "person".data, "Jane".data, []⟩]).2
        "tA".data [] none 10 =
      [⟨"eA".data, "Jane".data, "person".data⟩] ∧
    (∀ row ∈ GraphStore.findEntitiesByName
        (applyOps ([], [])
          [.gcreate "tA".data ⟨"eA".data, "tA".data, "person".data, "Jane".data, []⟩,
           .gcreate "tB".data ⟨"eB".data, "tB".data, "person".data, "Jane".data, []⟩]).2
        "tA".data [] none 10,
      ∃ e, StoreOp.gcreate "tA".data e ∈
          [StoreOp.gcreate "tA".data ⟨"eA".data, "tA".data, "person".data, "Jane".data, []⟩,
           StoreOp.gcreate "tB".data ⟨"eB".data, "tB".data, "person".data, "Jane".data, []⟩] ∧
        row.id = e.id ∧ row.name = e.name ∧ row.type = e.type) := by
  constructor
  · decide
  · exact (tenant_isolation "tA".data "tB".data (by decide)
      [.gcreate "tA".data ⟨"eA".data, "tA".data, "person".data, "Jane".data, []⟩,
       .gcreate "tB".data ⟨"eB".data, "tB".data, "person".data, "Jane".data, []⟩]
      (fun _ _ => 0) [] 10 none [] [] none 10).2.2.2

end Evergreen
